import Mathlib

/-!
# Transducers (`transducer.cpp`)

A shallow embedding of the transducer library: the five step-function wrappers
(`tr_map_gen`, `tr_filter_gen`, `tr_enumerate_gen`, `tr_limit_gen`, `tr_each_gen`),
the reversed functional chain `fn_chain_reversed`, the zipping driver `fn_accum_impl`
and the terminal operations `fn_tr_transduce`, `fn_into_vector`, `fn_tr_reduce` and
`fn_tr_end`.

Conventions of the embedding.

* A C++ function object is a value `self` of its class together with its `operator()`.
  A call `step(out, ins...)` may mutate the object and the accumulator `out` that it takes
  by reference, and returns a `bool`; it is modelled as a function returning a
  `StepResult` (returned bool, object after the call, accumulator after the call).
* The argument pack `ins...` is a right-nested tuple: one argument is a value, two
  arguments are a pair, and `enumerate` puts its index in front of the pack.
* `int` is a 32-bit two's complement integer: `n++` is `int_wrap (n + 1)`.
* Iterators into a range are positions; `std::begin` is `0` and `std::end` the length.
* The `while` loop of `fn_accum_impl` takes a fuel argument; `none` is returned when the
  fuel runs out or when an iterator outside its range is dereferenced.
* A mapping function is a function of the values of its arguments. A stage that forwards
  its pack once hands it on as it received it. The filter stage forwards its pack twice,
  first to the predicate and then to the wrapped step, so a predicate is modelled by the
  bool it returns together with the pack as its call leaves it (`keeps`, `moves`).
  An effect function is a function object; the effect of a call `each(ins...)` is a
  change of that object.
* The number of values in a pack is not part of its type: a pack of two values and one
  value of pair type are both a pair. An application that C++ rejects for the number of
  arguments of a callable has no counterpart in the model.
* An expression that does not compile (calling the empty chain) evaluates to `none`.
-/

namespace Transducer

/-! ## Machine integers -/

/-- Reduction of an integer to the range of a 32-bit `int` (two's complement). -/
def int_wrap (x : Int) : Int := (x + 2 ^ 31) % 2 ^ 32 - 2 ^ 31

/-! ## Step functions -/

/-- Outcome of one call `step(out, ins...)`: the returned `bool` (`true` is continue,
`false` is stop), the function object after the call and the accumulator after the call. -/
structure StepResult (RF A : Type) where
  ok : Bool
  self : RF
  out : A

/-- A reducing (step) function object of class `RF`, callable as `step(out, ins...)` with
an accumulator of type `A` and an argument pack of type `I`. -/
structure ReducingFn (RF A I : Type) where
  self : RF
  call : RF → A → I → StepResult RF A

/-- An effect function object of class `E` (the `EachFnT` of `tr_each_gen`), callable as
`each(ins...)`; its result is discarded, the effect of a call is the change of `self`. -/
structure EachFn (E I : Type) where
  self : E
  call : E → I → E

/-- The struct `tr_map_gen::apply<ReducingFnT, MappingT>`. -/
structure tr_map_gen.apply (RF I O : Type) where
  step : RF
  mapping : I → O

/-- The call operator of `tr_map_gen::apply`: `return step(out, mapping(ins...));`. -/
def tr_map_gen.apply.call {RF A I O : Type} (stepCall : RF → A → O → StepResult RF A)
    (self : tr_map_gen.apply RF I O) (out : A) (ins : I) :
    StepResult (tr_map_gen.apply RF I O) A :=
  let r := stepCall self.step out (self.mapping ins)
  { ok := r.ok, self := { self with step := r.self }, out := r.out }

/-- A predicate whose call leaves the pack as it was: the pack is of lvalues (the
elements of a source), which a parameter taken by value copies, or of trivially copyable
values (an `int`), or the predicate takes its parameters by reference to `const`. -/
def keeps {I : Type} (p : I → Bool) : I → Bool × I := fun ins => (p ins, ins)

/-- A predicate that takes its parameter by value, called on a pack that is an rvalue (the
result of a mapping function): the forwarded argument is moved into the parameter, and
`moved ins` is the moved-from value that the call leaves in the pack. -/
def moves {I : Type} (p : I → Bool) (moved : I → I) : I → Bool × I :=
  fun ins => (p ins, moved ins)

/-- The struct `tr_filter_gen::apply<ReducingFnT, FilterT>`. The member `pred` is called on
the forwarded pack: `pred ins` is the bool that `pred(std::forward<decltype(ins)>(ins)...)`
returns together with the pack `ins` as that call leaves it. -/
structure tr_filter_gen.apply (RF I : Type) where
  step : RF
  pred : I → Bool × I

/-- The call operator of `tr_filter_gen::apply`:
`if (pred(std::forward<decltype(ins)>(ins)...))
return step(out, std::forward<decltype(ins)>(ins)...); else return true;`.
The pack is forwarded twice: `step` receives it as the call of `pred` left it. -/
def tr_filter_gen.apply.call {RF A I : Type} (stepCall : RF → A → I → StepResult RF A)
    (self : tr_filter_gen.apply RF I) (out : A) (ins : I) :
    StepResult (tr_filter_gen.apply RF I) A :=
  let tested := self.pred ins
  if tested.1 then
    let r := stepCall self.step out tested.2
    { ok := r.ok, self := { self with step := r.self }, out := r.out }
  else
    { ok := true, self := self, out := out }

/-- The struct `tr_enumerate_gen::apply<ReducingFnT, N>`. -/
structure tr_enumerate_gen.apply (RF : Type) where
  step : RF
  n : Int

/-- The call operator of `tr_enumerate_gen::apply`: `return step(out, n++, ins...);`.
The old value of `n` is passed on and `n` is incremented before `step` runs. -/
def tr_enumerate_gen.apply.call {RF A I : Type}
    (stepCall : RF → A → Int × I → StepResult RF A)
    (self : tr_enumerate_gen.apply RF) (out : A) (ins : I) :
    StepResult (tr_enumerate_gen.apply RF) A :=
  let old := self.n
  let self1 : tr_enumerate_gen.apply RF := { self with n := int_wrap (self.n + 1) }
  let r := stepCall self1.step out (old, ins)
  { ok := r.ok, self := { self1 with step := r.self }, out := r.out }

/-- The struct `tr_limit_gen::apply<ReducingFnT, N1, N2>`. -/
structure tr_limit_gen.apply (RF : Type) where
  step : RF
  n : Int
  limit : Int

/-- The call operator of `tr_limit_gen::apply`:
`return (n++ > limit) ? false : step(out, ins...);`. -/
def tr_limit_gen.apply.call {RF A I : Type} (stepCall : RF → A → I → StepResult RF A)
    (self : tr_limit_gen.apply RF) (out : A) (ins : I) :
    StepResult (tr_limit_gen.apply RF) A :=
  let old := self.n
  let self1 : tr_limit_gen.apply RF := { self with n := int_wrap (self.n + 1) }
  if old > self1.limit then
    { ok := false, self := self1, out := out }
  else
    let r := stepCall self1.step out ins
    { ok := r.ok, self := { self1 with step := r.self }, out := r.out }

/-- The struct `tr_each_gen::apply<ReducingFnT, EachFnT>`. The member `step` is stored
and never called, so its class `RF` needs no call operator. -/
structure tr_each_gen.apply (RF E I : Type) where
  step : RF
  each : EachFn E I

/-- The call operator of `tr_each_gen::apply`: `each(ins...); return true;`. -/
def tr_each_gen.apply.call {RF A E I : Type}
    (self : tr_each_gen.apply RF E I) (out : A) (ins : I) :
    StepResult (tr_each_gen.apply RF E I) A :=
  { ok := true,
    self := { self with each := { self.each with self := self.each.call self.each.self ins } },
    out := out }

/-! ## Transducer descriptors -/

/-- The class `tr_transducer<G, Ts...>`: a generator tag `G` with the tuple `params` of
captured parameters. `tr_transducer I O` turns a step function taking argument packs of
type `O` into one taking packs of type `I`. -/
inductive tr_transducer : Type → Type → Type 1 where
  /-- Generator `tr_map_gen`, parameters `(mapping)`. -/
  | map {I O : Type} (mapping : I → O) : tr_transducer I O
  /-- Generator `tr_filter_gen`, parameters `(pred)`. -/
  | filter {I : Type} (pred : I → Bool × I) : tr_transducer I I
  /-- Generator `tr_enumerate_gen`, parameters `(n)`. -/
  | enumerate {I : Type} (n : Int) : tr_transducer I (Int × I)
  /-- Generator `tr_limit_gen`, parameters `(n, limit)`. -/
  | limit {I : Type} (n : Int) (limit : Int) : tr_transducer I I
  /-- Generator `tr_each_gen`, parameters `(each)`. -/
  | each {I O E : Type} (each : EachFn E I) : tr_transducer I O

/-- The result type `G::apply<RF, Ts...>` of `tr_transducer::make`. -/
def tr_transducer.Apply {I O : Type} (t : tr_transducer I O) (RF : Type) : Type :=
  match t with
  | @tr_transducer.map I O _ => tr_map_gen.apply RF I O
  | @tr_transducer.filter I _ => tr_filter_gen.apply RF I
  | @tr_transducer.enumerate _ _ => tr_enumerate_gen.apply RF
  | @tr_transducer.limit _ _ _ => tr_limit_gen.apply RF
  | @tr_transducer.each I _ E _ => tr_each_gen.apply RF E I

/-- The function `tr_transducer::make`: aggregate initialisation
`{step, std::get<indexes>(params)...}` of the apply struct. -/
def tr_transducer.make {I O : Type} (t : tr_transducer I O) {RF : Type} (step : RF) :
    t.Apply RF :=
  match t with
  | .map f => ({ step := step, mapping := f } : tr_map_gen.apply _ _ _)
  | .filter p => ({ step := step, pred := p } : tr_filter_gen.apply _ _)
  | .enumerate n => ({ step := step, n := n } : tr_enumerate_gen.apply _)
  | .limit n l => ({ step := step, n := n, limit := l } : tr_limit_gen.apply _)
  | .each g => ({ step := step, each := g } : tr_each_gen.apply _ _ _)

/-- The call operator of the struct built by `make`, given the call operator of the
wrapped step. -/
def tr_transducer.applyCall {I O : Type} (t : tr_transducer I O) {RF A : Type}
    (stepCall : RF → A → O → StepResult RF A) :
    t.Apply RF → A → I → StepResult (t.Apply RF) A :=
  match t with
  | .map _ => tr_map_gen.apply.call stepCall
  | .filter _ => tr_filter_gen.apply.call stepCall
  | .enumerate _ => tr_enumerate_gen.apply.call stepCall
  | .limit _ _ => tr_limit_gen.apply.call stepCall
  | .each _ => tr_each_gen.apply.call

/-- The call operator `tr_transducer::operator()(RF&& step)`: the step function object
wrapping `step`. -/
def tr_transducer.app {I O : Type} (t : tr_transducer I O) {RF A : Type}
    (step : ReducingFn RF A O) : ReducingFn (t.Apply RF) A I :=
  { self := t.make step.self, call := t.applyCall step.call }

/-- The function `tr_map(f)`. -/
def tr_map {I O : Type} (f : I → O) : tr_transducer I O := .map f

/-- The function `tr_filter(pred)`. -/
def tr_filter {I : Type} (pred : I → Bool × I) : tr_transducer I I := .filter pred

/-- The function `tr_enumerate(n)`; the C++ default argument `n = 0` is passed explicitly. -/
def tr_enumerate {I : Type} (n : Int) : tr_transducer I (Int × I) := .enumerate n

/-- The function `tr_limit(limit)`: the counter starts at `1`. -/
def tr_limit {I : Type} (limit : Int) : tr_transducer I I := .limit 1 limit

/-- The function `tr_each(each)`. -/
def tr_each {I O E : Type} (each : EachFn E I) : tr_transducer I O := .each each

/-! ## The reversed chain of functors -/

/-- The class `fn_chain_reversed<FNs...>`: the tuple `functions` of stored functors.
`cons head tail` is the tuple whose element `0` is `head`; `nil` is `fn_chain_reversed<>`.
A chain of type `fn_chain_reversed I O` takes a step function on packs of type `O` to one
on packs of type `I`. -/
inductive fn_chain_reversed : Type → Type → Type 1 where
  | nil {I : Type} : fn_chain_reversed I I
  | cons {I M O : Type} (head : tr_transducer M O) (tail : fn_chain_reversed I M) :
      fn_chain_reversed I O

/-- The number `sizeof...(FNs)` of stored functors. -/
def fn_chain_reversed.size {I O : Type} : fn_chain_reversed I O → Nat
  | .nil => 0
  | .cons _ tail => tail.size + 1

/-- The member `final_type<...>::type`: the class of the object returned by `call` for an
argument of class `RF`. -/
def fn_chain_reversed.final_type {I O : Type} : fn_chain_reversed I O → Type → Type
  | .nil, RF => RF
  | .cons head tail, RF => tail.final_type (head.Apply RF)

/-- The two overloads of `call<I>` on the functors from index `I` on: with one functor
left (`I == sizeof...(FNs) - 1`) it is applied and the result returned, with more left
(`I < sizeof...(FNs) - 1`) it is applied and `call<I+1>` continues. For the empty tuple
neither overload of `call<0>` is well-formed (`std::get<0>` of an empty tuple): `none`. -/
def fn_chain_reversed.call {I O : Type} : (c : fn_chain_reversed I O) → {RF A : Type} →
    ReducingFn RF A O → Option (ReducingFn (c.final_type RF) A I)
  | .nil, _, _, _ => none
  | .cons head .nil, _, _, arg => some (head.app arg)
  | .cons head (.cons h t), _, _, arg => (fn_chain_reversed.cons h t).call (head.app arg)

/-- The member `add`: `std::tuple_cat(std::make_tuple(f), functions)`. -/
def fn_chain_reversed.add {I M O : Type} (c : fn_chain_reversed I M) (f : tr_transducer M O) :
    fn_chain_reversed I O :=
  .cons f c

/-- The call operator `fn_chain_reversed::operator()`: `call<0>(arg)`. -/
def fn_chain_reversed.invoke {I O RF A : Type} (c : fn_chain_reversed I O)
    (arg : ReducingFn RF A O) : Option (ReducingFn (c.final_type RF) A I) :=
  c.call arg

/-- The operator `transducer | rf` on an rvalue chain: `transducer.add(rf)`. -/
def fn_chain_reversed.pipe {I M O : Type} (transducer : fn_chain_reversed I M)
    (rf : tr_transducer M O) : fn_chain_reversed I O :=
  transducer.add rf

/-- The macro `tr`: the empty chain `fn_chain_reversed<>()`. -/
def tr {I : Type} : fn_chain_reversed I I := .nil

/-! ## The driver -/

/-- The pack `Ranges ... ranges` of one or more ranges, each a finite sequence; `Ranges I`
has `I` as the type of the tuple of one element from every range. -/
inductive Ranges : Type → Type 1 where
  | one {α : Type} (r : List α) : Ranges α
  | cons {α β : Type} (r : List α) (rest : Ranges β) : Ranges (α × β)

/-- The tuple `std::make_tuple(std::begin(ranges)...)` of start positions. -/
def Ranges.begins {I : Type} : Ranges I → List Nat
  | .one _ => [0]
  | .cons _ rest => 0 :: rest.begins

/-- The tuple `std::make_tuple(std::end(ranges)...)` of end positions. -/
def Ranges.ends {I : Type} : Ranges I → List Nat
  | .one r => [r.length]
  | .cons r rest => r.length :: rest.ends

/-- The pack `*std::get<Indices>(firsts)...`: the elements under the iterators; `none`
when an iterator is outside its range. -/
def Ranges.deref {I : Type} : Ranges I → List Nat → Option I
  | .one r, [i] => r[i]?
  | .cons r rest, i :: firsts =>
    match r[i]?, rest.deref firsts with
    | some x, some y => some (x, y)
    | _, _ => none
  | _, _ => none

/-- The struct `tuple_all_neq_t<Index, Max>` with `Index = Max - d`: the specialisation
`<Max, Max>` (`d = 0`) returns `true`, otherwise
`get<Index>(t1) != get<Index>(t2) && tuple_all_neq_t<Index + 1, Max>{}(t1, t2)`. -/
def tuple_all_neq_t (Max : Nat) (t1 t2 : List Nat) : Nat → Bool
  | 0 => true
  | d + 1 =>
    (t1.getD (Max - (d + 1)) 0 != t2.getD (Max - (d + 1)) 0) && tuple_all_neq_t Max t1 t2 d

/-- The function `tuple_all_neq`: `tuple_all_neq_t<0, min(size1, size2)>{}(t1, t2)`. -/
def tuple_all_neq (t1 t2 : List Nat) : Bool :=
  let size1 := t1.length
  let size2 := t2.length
  let Max := if size1 > size2 then size2 else size1
  tuple_all_neq_t Max t1 t2 Max

/-- The variables of `fn_accum_impl` when its loop is left: the step function object, the
accumulator `out`, the iterators `firsts` and the flag `ok`. -/
structure AccumState (RF A : Type) where
  step : RF
  out : A
  firsts : List Nat
  ok : Bool

/-- The loop of `fn_accum_impl`:
`while (tuple_all_neq(firsts, lasts) && ok) { ok = step(out, *firsts...); ++firsts...; }`
(the call `fn_detail::noop(++std::get<Indices>(firsts)...)` only carries the increments of
all iterators). -/
def fn_accum_loop {RF A I : Type} (call : RF → A → I → StepResult RF A) (ranges : Ranges I)
    (lasts : List Nat) : Nat → RF → A → List Nat → Bool → Option (AccumState RF A)
  | 0, _, _, _, _ => none
  | fuel + 1, step, out, firsts, ok =>
    if tuple_all_neq firsts lasts && ok then
      match ranges.deref firsts with
      | none => none
      | some ins =>
        let r := call step out ins
        fn_accum_loop call ranges lasts fuel r.self r.out (firsts.map (· + 1)) r.ok
    else
      some { step := step, out := out, firsts := firsts, ok := ok }

/-- The function `fn_accum_impl(indices, step, out, ranges...)`. -/
def fn_accum_impl {RF A I : Type} (fuel : Nat) (step : ReducingFn RF A I) (out : A)
    (ranges : Ranges I) : Option (AccumState RF A) :=
  let firsts := ranges.begins
  let lasts := ranges.ends
  let ok := true
  fn_accum_loop step.call ranges lasts fuel step.self out firsts ok

/-! ## Terminal operations -/

/-- The function `fn_tr_transduce(init, transducer, reducingFunction, ins...)`; the value
returned is the accumulator `out`. -/
def fn_tr_transduce {RF A I O : Type} (fuel : Nat) (init : A)
    (transducer : fn_chain_reversed I O) (reducingFunction : ReducingFn RF A O)
    (ins : Ranges I) : Option A :=
  match transducer.invoke reducingFunction with
  | none => none
  | some step =>
    match fn_accum_impl fuel step init ins with
    | none => none
    | some s => some s.out

/-- The base step function of `main`,
`[](std::vector<int>& out, int x) { out.push_back(x); return true; }`: a lambda that takes
one value of the element type of its vector and appends it. -/
def push_back_fn {O : Type} : ReducingFn Unit (List O) O :=
  { self := (), call := fun self out input => { ok := true, self := self, out := out ++ [input] } }

/-- The type `std::decay_t<decltype(*std::begin(input))>`: the element type of the first
range of the pack. -/
@[reducible] def Ranges.first_type {I : Type} : Ranges I → Type
  | @Ranges.one α _ => α
  | @Ranges.cons α _ _ _ => α

/-- The function `fn_into_vector(step, input, ins...)`: `fn_tr_transduce` from the empty
`std::vector` of the element type of `input`, with the lambda
`[] (auto& out, auto input) { out.push_back(input); return true; }` as the base. The
lambda takes one value, of the type `O` that the chain hands on, and `push_back` converts
it to the element type of the vector; `conv` is that implicit conversion, the identity
when `O` is the element type. For a chain that hands on a pack of several values the call
of the lambda is ill-formed, and there is no conversion to give. -/
def fn_into_vector {I O : Type} (fuel : Nat) (step : fn_chain_reversed I O)
    (ins : Ranges I) (conv : O → ins.first_type) : Option (List ins.first_type) :=
  fn_tr_transduce fuel [] step
    ({ self := (),
       call := fun self out input => { ok := true, self := self, out := out ++ [conv input] } } :
      ReducingFn Unit (List ins.first_type) O)
    ins

/-- The function `fn_tr_reduce(init, step, ins...)`: the returned accumulator together
with the caller's step function object, which the call mutates in place. -/
def fn_tr_reduce {RF A I : Type} (fuel : Nat) (init : A) (step : ReducingFn RF A I)
    (ins : Ranges I) : Option (A × ReducingFn RF A I) :=
  match fn_accum_impl fuel step init ins with
  | none => none
  | some s => some (s.out, { step with self := s.step })

/-- The lambda `[](){}` of `fn_tr_end`: it takes no argument list `(out, ins...)`, so the
type of the packs it can be called with is empty. -/
def noop_fn : ReducingFn Unit Int Empty :=
  { self := (), call := fun _ _ ins => nomatch ins }

/-- The function `fn_tr_end(step, ins...)`. It returns `void`; the model returns its local
variables `step_wrap` and `out` at the end of the run, where the effects of the run are
recorded. -/
def fn_tr_end {I : Type} (fuel : Nat) (step : fn_chain_reversed I Empty) (ins : Ranges I) :
    Option (AccumState (step.final_type Unit) Int) :=
  match step.invoke noop_fn with
  | none => none
  | some step_wrap => fn_accum_impl fuel step_wrap 0 ins

/-! ## Descriptors and chains as objects

The member functions `make` and `operator()` of a descriptor and `call` and `operator()`
of a chain are declared `const`. The definitions of this section give, next to the value
that such a call returns, the object on which it was called as the call leaves it, in
the way the call operators of the step function objects do. -/

/-- The positionally zipped tuples of a pack of ranges, truncated to the shortest one. -/
def Ranges.tuples {I : Type} : Ranges I → List I
  | .one r => r
  | .cons r rest => List.zip r rest.tuples

/-- The length of the shortest range of a pack. -/
def Ranges.shortest {I : Type} : Ranges I → Nat
  | .one r => r.length
  | .cons r rest => min r.length rest.shortest

/-- The run of a step function over a list of tuples that ends after the first call
returning stop: the result of the last call made (`ok := true` when none was made). -/
def runList {RF A I : Type} (call : RF → A → I → StepResult RF A) :
    RF → A → List I → StepResult RF A
  | self, out, [] => { ok := true, self := self, out := out }
  | self, out, e :: es =>
    let r := call self out e
    if r.ok then runList call r.self r.out es else r

/-- The number of calls made by `runList`. -/
def invocations {RF A I : Type} (call : RF → A → I → StepResult RF A) :
    RF → A → List I → Nat
  | _, _, [] => 0
  | self, out, e :: es =>
    let r := call self out e
    if r.ok then invocations call r.self r.out es + 1 else 1

/-- The fold of a step function over a list of tuples, whatever the calls return. -/
def foldSteps {RF A I : Type} (call : RF → A → I → StepResult RF A) (self : RF) (out : A)
    (es : List I) : StepResult RF A :=
  es.foldl (fun s e => call s.self s.out e) { ok := true, self := self, out := out }

/-- The index of the first tuple on which the step function, folded over the list,
returns stop. -/
def firstStop {RF A I : Type} (call : RF → A → I → StepResult RF A) :
    RF → A → List I → Option Nat
  | _, _, [] => none
  | self, out, e :: es =>
    let r := call self out e
    if r.ok then (firstStop call r.self r.out es).map (· + 1) else some 0

/-- The number `m = min(length, j + 1)` of tuples processed, for `j` the index of the
first stop; all of them when the step function never returns stop. -/
def processed {RF A I : Type} (call : RF → A → I → StepResult RF A) (self : RF) (out : A)
    (es : List I) : Nat :=
  match firstStop call self out es with
  | some j => min es.length (j + 1)
  | none => es.length

/-- The fold of the step function over the tuples `0 .. m - 1` of a pack of ranges, for
`m` the number `processed`. -/
def foldProcessed {RF A I : Type} (step : ReducingFn RF A I) (out : A) (ranges : Ranges I) :
    StepResult RF A :=
  foldSteps step.call step.self out
    (ranges.tuples.take (processed step.call step.self out ranges.tuples))

/-- A step function instrumented with the log of the argument packs it was called with. -/
def traced {RF A I : Type} (step : ReducingFn RF A I) : ReducingFn (RF × List I) A I :=
  { self := (step.self, []),
    call := fun self out ins =>
      let r := step.call self.1 out ins
      { ok := r.ok, self := (r.self, self.2 ++ [ins]), out := r.out } }

/-- A base step function for packs of two values, as a caller of the library writes it
for a chain that hands on two values,
`[](auto& out, auto a, auto b) { out.emplace_back(a, b); return true; }`: it appends the
pair of its two arguments. -/
def emplace_back_fn {α β : Type} : ReducingFn Unit (List (α × β)) (α × β) :=
  { self := (), call := fun self out ins => { ok := true, self := self, out := out ++ [ins] } }

/-- An effect function that records, in order, the argument packs it is called with. -/
def recording_fn {I : Type} : EachFn (List I) I :=
  { self := [], call := fun log ins => log ++ [ins] }

/-- The pairs that `enumerate` makes of a list from the index `n` on, the index being
incremented as an `int`. -/
def enumFrom32 {I : Type} : Int → List I → List (Int × I)
  | _, [] => []
  | n, e :: es => (n, e) :: enumFrom32 (int_wrap (n + 1)) es

/-- The pairs `(n0 + i, xs[i])` of a list, the index `n0 + i` computed as an `int`. -/
def indexedFrom32 {I : Type} (n0 : Int) (xs : List I) : List (Int × I) :=
  xs.enum.map (fun ix => (int_wrap (n0 + (ix.1 : Int)), ix.2))

/-- The pairs `(n0 + i, xs[i])` of a list, with unbounded integer indices. -/
def indexedFrom {I : Type} (n0 : Int) (xs : List I) : List (Int × I) :=
  xs.enum.map (fun ix => (n0 + (ix.1 : Int), ix.2))

/-- The elements that a `limit` stage with counter `n` and cap `L` hands to its wrapped
step out of a list of arriving elements, up to the call on which it returns stop. -/
def limitEmits {I : Type} (L : Int) : Int → List I → List I
  | _, [] => []
  | n, e :: es => if n > L then [] else e :: limitEmits L (int_wrap (n + 1)) es

/-- The list of packs that one transducer hands to its wrapped step out of the list of
packs arriving at it. -/
def tr_transducer.emits {I O : Type} (t : tr_transducer I O) (es : List I) : List O :=
  match t with
  | .map f => es.map f
  | .filter p => (es.filter (fun e => (p e).1)).map (fun e => (p e).2)
  | .enumerate n => enumFrom32 n es
  | .limit n l => limitEmits l n es
  | .each _ => []

/-- The list of packs that a chain hands to the base step out of a list of tuples. -/
def fn_chain_reversed.emits {I O : Type} : fn_chain_reversed I O → List I → List O
  | .nil, es => es
  | .cons head tail, es => head.emits (tail.emits es)

/-- The object obtained by applying every stored functor from index `0` upward, the
argument itself for the empty tuple. -/
def fn_chain_reversed.wrapSelf {I O : Type} : (c : fn_chain_reversed I O) → {RF : Type} →
    RF → c.final_type RF
  | .nil, _, d => d
  | .cons head tail, _, d => tail.wrapSelf (head.make d)

/-- The call operator of the object built by `wrapSelf`. -/
def fn_chain_reversed.wrapCall {I O : Type} : (c : fn_chain_reversed I O) → {RF A : Type} →
    (RF → A → O → StepResult RF A) →
    c.final_type RF → A → I → StepResult (c.final_type RF) A
  | .nil, _, _, call => call
  | .cons head tail, _, _, call => tail.wrapCall (head.applyCall call)

/-- The step function obtained by applying every stored functor from index `0` upward. -/
def fn_chain_reversed.wrap {I O RF A : Type} (c : fn_chain_reversed I O)
    (arg : ReducingFn RF A O) : ReducingFn (c.final_type RF) A I :=
  { self := c.wrapSelf arg.self, call := c.wrapCall arg.call }

/-- The member `step` of the struct built by `make`: the wrapped step function object. -/
def tr_transducer.inner {I O : Type} (t : tr_transducer I O) {RF : Type} :
    t.Apply RF → RF :=
  match t with
  | .map _ => fun s => tr_map_gen.apply.step s
  | .filter _ => fun s => tr_filter_gen.apply.step s
  | .enumerate _ => fun s => tr_enumerate_gen.apply.step s
  | .limit _ _ => fun s => tr_limit_gen.apply.step s
  | .each _ => fun s => tr_each_gen.apply.step s

/-- The base step function object inside the nested object that a chain builds: the
innermost member `step`. -/
def fn_chain_reversed.base {I O : Type} : (c : fn_chain_reversed I O) → {RF : Type} →
    c.final_type RF → RF
  | .nil, _, s => s
  | .cons head tail, _, s => head.inner (tail.base s)

/-- Whether a transducer is a map, filter or enumerate stage. -/
def tr_transducer.isMapFilterEnumerate {I O : Type} (t : tr_transducer I O) : Bool :=
  match t with
  | .map _ => true
  | .filter _ => true
  | .enumerate _ => true
  | .limit _ _ => false
  | .each _ => false

/-- Whether a chain is built only from map, filter and enumerate stages. -/
def fn_chain_reversed.onlyMapFilterEnumerate {I O : Type} : fn_chain_reversed I O → Bool
  | .nil => true
  | .cons head tail => head.isMapFilterEnumerate && tail.onlyMapFilterEnumerate

/-- A sequence `T1, ..., Tn` of `n ≥ 1` transducers in pipeline (source) order. -/
inductive Pipeline : Type → Type → Type 1 where
  | last {I O : Type} (t : tr_transducer I O) : Pipeline I O
  | cons {I M O : Type} (t : tr_transducer I M) (rest : Pipeline M O) : Pipeline I O

/-- The chain `c | T1 | T2 | ... | Tn`, built left to right. -/
def Pipeline.chain {X I O : Type} : fn_chain_reversed X I → Pipeline I O →
    fn_chain_reversed X O
  | c, .last t => c.pipe t
  | c, .cons t rest => Pipeline.chain (c.pipe t) rest

/-- The class of the nested step function `T1(T2(...Tn(B)...))` for `B` of class `RF`. -/
def Pipeline.Nested {I O : Type} : Pipeline I O → Type → Type
  | .last t, RF => t.Apply RF
  | .cons t rest, RF => t.Apply (rest.Nested RF)

/-- The nested step function `T1(T2(...Tn(B)...))`. -/
def Pipeline.nest {I O : Type} : (p : Pipeline I O) → {RF A : Type} → ReducingFn RF A O →
    ReducingFn (p.Nested RF) A I
  | .last t, _, _, B => t.app B
  | .cons t rest, _, _, B => t.app (rest.nest B)

/-- A step function object together with its class. -/
def packed {T A I : Type} (s : ReducingFn T A I) : (T : Type) × ReducingFn T A I := ⟨T, s⟩

/-! # Theorems -/
/-! ## Auxiliary lemmas -/

theorem Ranges.length_tuples {I : Type} (rs : Ranges I) : rs.tuples.length = rs.shortest := by
  induction rs with
  | one r => rfl
  | cons r rest ih => simp [Ranges.tuples, Ranges.shortest, ih]

theorem tuple_all_neq_t_shift (M : Nat) (a b : Nat) (t1 t2 : List Nat) (d : Nat) (hd : d ≤ M) :
    tuple_all_neq_t (M + 1) (a :: t1) (b :: t2) d = tuple_all_neq_t M t1 t2 d := by
  induction d with
  | zero => rfl
  | succ d ih =>
    have h1 : M + 1 - (d + 1) = (M - (d + 1)) + 1 := by omega
    simp only [tuple_all_neq_t, h1, List.getD_cons_succ]
    rw [ih (by omega)]

theorem tuple_all_neq_cons (a b : Nat) (t1 t2 : List Nat) :
    tuple_all_neq (a :: t1) (b :: t2) = (a != b && tuple_all_neq t1 t2) := by
  have hM : ∀ (x y : Nat),
      (if x + 1 > y + 1 then y + 1 else x + 1) = (if x > y then y else x) + 1 := by
    intro x y; split_ifs <;> omega
  simp only [tuple_all_neq, List.length_cons, hM, tuple_all_neq_t]
  rw [tuple_all_neq_t_shift _ _ _ _ _ _ (le_refl _)]
  simp

theorem tuple_all_neq_one (a b : Nat) : tuple_all_neq [a] [b] = (a != b) := by
  simp [tuple_all_neq, tuple_all_neq_t]

theorem tuple_all_neq_nil_left (t2 : List Nat) : tuple_all_neq [] t2 = true := by
  simp [tuple_all_neq, tuple_all_neq_t]

theorem tuple_all_neq_nil_right (t1 : List Nat) : tuple_all_neq t1 [] = true := by
  cases t1 <;> simp [tuple_all_neq, tuple_all_neq_t]

/-- The function `tuple_all_neq` compares the two tuples position by position, up to the
size of the smaller one. -/
theorem tuple_all_neq_iff (t1 : List Nat) : ∀ (t2 : List Nat),
    tuple_all_neq t1 t2 = true ↔ ∀ q ∈ List.zip t1 t2, q.1 ≠ q.2 := by
  induction t1 with
  | nil => intro t2; simp [tuple_all_neq_nil_left]
  | cons a t1 ih =>
    intro t2
    cases t2 with
    | nil => simp [tuple_all_neq_nil_right]
    | cons b t2 =>
      rw [tuple_all_neq_cons, Bool.and_eq_true, ih t2]
      simp [List.zip_cons_cons]

theorem Ranges.tuple_all_neq_pos {I : Type} (rs : Ranges I) (i : Nat) (hi : i ≤ rs.shortest) :
    tuple_all_neq (rs.begins.map (· + i)) rs.ends = decide (i < rs.shortest) := by
  induction rs with
  | one r =>
    simp only [Ranges.begins, Ranges.ends, Ranges.shortest, List.map, tuple_all_neq_one] at *
    rw [Bool.eq_iff_iff]; simp; omega
  | cons r rest ih =>
    simp only [Ranges.begins, Ranges.ends, Ranges.shortest, List.map, tuple_all_neq_cons] at *
    rw [ih (by omega)]
    rw [Bool.eq_iff_iff]; simp; omega

theorem Ranges.deref_pos {I : Type} (rs : Ranges I) (i : Nat) :
    rs.deref (rs.begins.map (· + i)) = rs.tuples[i]? := by
  induction rs with
  | one r => simp [Ranges.begins, Ranges.deref, Ranges.tuples]
  | cons r rest ih =>
    simp only [Ranges.begins, Ranges.deref, Ranges.tuples, List.map, ih, Nat.zero_add]
    cases h1 : r[i]? with
    | none =>
      have h3 : (r.zip rest.tuples)[i]? = none := by
        rw [List.getElem?_eq_none_iff] at h1 ⊢
        simp only [List.length_zip]; omega
      cases h2 : rest.tuples[i]? <;> simp [h3]
    | some x =>
      cases h2 : rest.tuples[i]? with
      | none =>
        have h3 : (r.zip rest.tuples)[i]? = none := by
          rw [List.getElem?_eq_none_iff] at h2 ⊢
          simp only [List.length_zip]; omega
        simp [h3]
      | some y =>
        have h3 : (r.zip rest.tuples)[i]? = some (x, y) := by
          rw [List.getElem?_zip_eq_some]; exact ⟨h1, h2⟩
        simp [h3]

theorem fn_accum_loop_stopped {RF A I : Type} (call : RF → A → I → StepResult RF A)
    (rs : Ranges I) (lasts : List Nat) (fuel : Nat) (step : RF) (out : A) (firsts : List Nat) :
    fn_accum_loop call rs lasts (fuel + 1) step out firsts false =
      some { step := step, out := out, firsts := firsts, ok := false } := by
  simp [fn_accum_loop]

theorem fn_accum_loop_eq {RF A I : Type} (call : RF → A → I → StepResult RF A)
    (rs : Ranges I) (fuel : Nat) :
    ∀ (i : Nat) (step : RF) (out : A), i ≤ rs.shortest → rs.shortest - i < fuel →
      fn_accum_loop call rs rs.ends fuel step out (rs.begins.map (· + i)) true =
        some { step := (runList call step out (rs.tuples.drop i)).self,
               out := (runList call step out (rs.tuples.drop i)).out,
               firsts := rs.begins.map (· + (i + invocations call step out (rs.tuples.drop i))),
               ok := (runList call step out (rs.tuples.drop i)).ok } := by
  induction fuel with
  | zero => intro i step out _ h; omega
  | succ fuel ih =>
    intro i step out hi hf
    rw [fn_accum_loop, Ranges.tuple_all_neq_pos rs i hi, Ranges.deref_pos]
    by_cases hlt : i < rs.shortest
    · have hlen : i < rs.tuples.length := by rw [Ranges.length_tuples]; exact hlt
      have hdrop : rs.tuples.drop i = rs.tuples[i] :: rs.tuples.drop (i + 1) :=
        List.drop_eq_getElem_cons hlen
      simp only [hlt, decide_True, Bool.and_self, if_true, List.getElem?_eq_getElem hlen,
        hdrop, runList, invocations, List.map_map]
      by_cases hok : (call step out rs.tuples[i]).ok = true
      · have h := ih (i + 1) (call step out rs.tuples[i]).self (call step out rs.tuples[i]).out
          (by omega) (by omega)
        have hfun : ((fun x => x + 1) ∘ fun x => x + i) = fun x => x + (i + 1) := by
          funext x; simp [Nat.add_assoc]
        rw [hok, hfun, h]
        simp [Nat.add_assoc, Nat.add_comm 1]
      · have hok2 : (call step out rs.tuples[i]).ok = false := by simpa using hok
        obtain ⟨fuel2, rfl⟩ : ∃ f2, fuel = f2 + 1 := ⟨fuel - 1, by omega⟩
        have hfun : ((fun x => x + 1) ∘ fun x => x + i) = fun x => x + (i + 1) := by
          funext x; simp [Nat.add_assoc]
        rw [hok2, fn_accum_loop_stopped, hfun]
        simp [hok2]
    · have hlen : rs.tuples.length ≤ i := by rw [Ranges.length_tuples]; omega
      simp [hlt, List.drop_eq_nil_of_le hlen, runList, invocations]

theorem runList_map {RF A I O : Type} (down : RF → A → O → StepResult RF A) (f : I → O)
    (es : List I) : ∀ (d : RF) (out : A),
    runList (tr_map_gen.apply.call down) { step := d, mapping := f } out es =
      { ok := (runList down d out (es.map f)).ok,
        self := { step := (runList down d out (es.map f)).self, mapping := f },
        out := (runList down d out (es.map f)).out } := by
  induction es with
  | nil => intro d out; rfl
  | cons e es ih =>
    intro d out
    simp only [runList, List.map, tr_map_gen.apply.call]
    by_cases h : (down d out (f e)).ok = true
    · simp only [h, if_true]; exact ih _ _
    · simp [h]

/-- A filter stage with any predicate hands on, in order, what the predicate left of the
packs it accepted. -/
theorem runList_filter_forwarded {RF A I : Type} (down : RF → A → I → StepResult RF A)
    (pred : I → Bool × I) (es : List I) : ∀ (d : RF) (out : A),
    runList (tr_filter_gen.apply.call down) { step := d, pred := pred } out es =
      { ok := (runList down d out
          ((es.filter (fun e => (pred e).1)).map (fun e => (pred e).2))).ok,
        self := { step := (runList down d out
          ((es.filter (fun e => (pred e).1)).map (fun e => (pred e).2))).self, pred := pred },
        out := (runList down d out
          ((es.filter (fun e => (pred e).1)).map (fun e => (pred e).2))).out } := by
  induction es with
  | nil => intro d out; rfl
  | cons e es ih =>
    intro d out
    by_cases hp : (pred e).1 = true
    · simp only [runList, List.filter, List.map, tr_filter_gen.apply.call, hp, if_true]
      by_cases h : (down d out (pred e).2).ok = true
      · simp only [h, if_true]; exact ih _ _
      · simp [h]
    · simp only [runList, List.filter, tr_filter_gen.apply.call, hp]
      simp only [Bool.false_eq_true, if_false, if_true]
      exact ih _ _

theorem filter_map_keeps {I : Type} (p : I → Bool) (es : List I) :
    (es.filter (fun e => (keeps p e).1)).map (fun e => (keeps p e).2) = es.filter p := by
  simp [keeps]

theorem runList_filter {RF A I : Type} (down : RF → A → I → StepResult RF A) (p : I → Bool)
    (es : List I) (d : RF) (out : A) :
    runList (tr_filter_gen.apply.call down) { step := d, pred := keeps p } out es =
      { ok := (runList down d out (es.filter p)).ok,
        self := { step := (runList down d out (es.filter p)).self, pred := keeps p },
        out := (runList down d out (es.filter p)).out } := by
  rw [runList_filter_forwarded, filter_map_keeps]

theorem runList_enumerate {RF A I : Type} (down : RF → A → Int × I → StepResult RF A)
    (es : List I) : ∀ (d : RF) (n : Int) (out : A),
    (runList (tr_enumerate_gen.apply.call down) { step := d, n := n } out es).ok =
        (runList down d out (enumFrom32 n es)).ok ∧
    (runList (tr_enumerate_gen.apply.call down) { step := d, n := n } out es).self.step =
        (runList down d out (enumFrom32 n es)).self ∧
    (runList (tr_enumerate_gen.apply.call down) { step := d, n := n } out es).out =
        (runList down d out (enumFrom32 n es)).out := by
  induction es with
  | nil => intro d n out; exact ⟨rfl, rfl, rfl⟩
  | cons e es ih =>
    intro d n out
    simp only [runList, enumFrom32, tr_enumerate_gen.apply.call]
    by_cases h : (down d out (n, e)).ok = true
    · simp only [h, if_true]; exact ih _ _ _
    · simp [h]

theorem runList_each {RF A E I : Type} (g : EachFn E I) (es : List I) :
    ∀ (d : RF) (w : E) (out : A),
    runList tr_each_gen.apply.call
        ({ step := d, each := { g with self := w } } : tr_each_gen.apply RF E I) out es =
      { ok := true, self := { step := d, each := { g with self := es.foldl g.call w } },
        out := out } := by
  induction es with
  | nil => intro d w out; rfl
  | cons e es ih =>
    intro d w out
    simp only [runList, tr_each_gen.apply.call, if_true, List.foldl]
    exact ih _ _ _

theorem int_wrap_of_range (x : Int) (h1 : -2 ^ 31 ≤ x) (h2 : x < 2 ^ 31) : int_wrap x = x := by
  unfold int_wrap
  rw [Int.emod_eq_of_lt (by omega) (by omega)]
  omega

theorem int_wrap_range (x : Int) : -2 ^ 31 ≤ int_wrap x ∧ int_wrap x < 2 ^ 31 := by
  unfold int_wrap
  omega

theorem runList_limit {RF A I : Type} (down : RF → A → I → StepResult RF A) (L : Int)
    (es : List I) : ∀ (c : Nat) (d : RF) (n : Int) (out : A),
    n + c = L + 1 → -2 ^ 31 ≤ n → n + min es.length (c + 1) ≤ 2 ^ 31 →
    (runList (tr_limit_gen.apply.call down) { step := d, n := n, limit := L } out es).ok =
        ((runList down d out (es.take c)).ok && decide (es.length ≤ c)) ∧
    (runList (tr_limit_gen.apply.call down) { step := d, n := n, limit := L } out es).self.step =
        (runList down d out (es.take c)).self ∧
    (runList (tr_limit_gen.apply.call down) { step := d, n := n, limit := L } out es).out =
        (runList down d out (es.take c)).out := by
  induction es with
  | nil => intro c d n out _ _ _; simp [runList]
  | cons e es ih =>
    intro c d n out hc hn hov
    cases c with
    | zero =>
      have : n > L := by omega
      simp [runList, tr_limit_gen.apply.call, this]
    | succ c =>
      have hle : ¬ (n > L) := by push_cast at hc; omega
      simp only [runList, tr_limit_gen.apply.call, hle, if_false, List.take_succ_cons]
      by_cases h : (down d out e).ok = true
      · simp only [h, if_true]
        cases es with
        | nil => simp [runList]
        | cons e2 es2 =>
          have hw : int_wrap (n + 1) = n + 1 := by
            apply int_wrap_of_range
            · omega
            · simp only [List.length_cons] at hov; omega
          rw [hw]
          have := ih c (down d out e).self (n + 1) (down d out e).out
            (by push_cast at hc; omega) (by omega)
            (by simp only [List.length_cons] at hov ⊢; omega)
          simpa using this
      · simp [h]

theorem fn_accum_impl_eq {RF A I : Type} (fuel : Nat) (step : ReducingFn RF A I) (out : A)
    (rs : Ranges I) (hfuel : rs.shortest < fuel) :
    fn_accum_impl fuel step out rs =
      some { step := (runList step.call step.self out rs.tuples).self,
             out := (runList step.call step.self out rs.tuples).out,
             firsts := rs.begins.map (· + invocations step.call step.self out rs.tuples),
             ok := (runList step.call step.self out rs.tuples).ok } := by
  have h := fn_accum_loop_eq step.call rs fuel 0 step.self out (Nat.zero_le _) (by omega)
  simp only [Nat.add_zero, List.map_id', List.drop_zero, Nat.zero_add] at h
  exact h

theorem fn_tr_reduce_eq {RF A I : Type} (fuel : Nat) (init : A) (step : ReducingFn RF A I)
    (rs : Ranges I) (hfuel : rs.shortest < fuel) :
    fn_tr_reduce fuel init step rs =
      some ((runList step.call step.self init rs.tuples).out,
            { step with self := (runList step.call step.self init rs.tuples).self }) := by
  simp [fn_tr_reduce, fn_accum_impl_eq fuel step init rs hfuel]

theorem fn_chain_reversed.call_eq_wrap {I O : Type} (c : fn_chain_reversed I O) :
    ∀ {RF A : Type} (arg : ReducingFn RF A O), 0 < c.size → c.call arg = some (c.wrap arg) := by
  induction c with
  | nil => intro _ _ _ h; simp [fn_chain_reversed.size] at h
  | cons head tail ih =>
    intro RF A arg _
    cases tail with
    | nil => rfl
    | cons h t =>
      rw [fn_chain_reversed.call, ih (head.app arg) (by simp [fn_chain_reversed.size])]
      rfl

theorem fn_tr_transduce_eq {RF A I O : Type} (fuel : Nat) (init : A)
    (c : fn_chain_reversed I O) (rf : ReducingFn RF A O) (rs : Ranges I)
    (hc : 0 < c.size) (hfuel : rs.shortest < fuel) :
    fn_tr_transduce fuel init c rf rs =
      some (runList (c.wrapCall rf.call) (c.wrapSelf rf.self) init rs.tuples).out := by
  unfold fn_tr_transduce fn_chain_reversed.invoke
  rw [fn_chain_reversed.call_eq_wrap c rf hc]
  simp only
  rw [fn_accum_impl_eq fuel (c.wrap rf) init rs hfuel]
  rfl

theorem foldSteps_cons {RF A I : Type} (call : RF → A → I → StepResult RF A) (self : RF)
    (out : A) (e : I) (es : List I) :
    foldSteps call self out (e :: es) =
      match es with
      | [] => call self out e
      | _ :: _ => foldSteps call (call self out e).self (call self out e).out es := by
  cases es with
  | nil => rfl
  | cons e2 es2 => simp only [foldSteps, List.foldl]

theorem firstStop_lt {RF A I : Type} (call : RF → A → I → StepResult RF A) (es : List I) :
    ∀ (self : RF) (out : A) (j : Nat), firstStop call self out es = some j → j < es.length := by
  induction es with
  | nil => intro self out j h; simp [firstStop] at h
  | cons e es ih =>
    intro self out j h
    simp only [firstStop] at h
    by_cases hok : (call self out e).ok = true
    · simp only [hok, if_true, Option.map_eq_some'] at h
      obtain ⟨j2, hj2, rfl⟩ := h
      have := ih _ _ _ hj2
      simp only [List.length_cons]; omega
    · simp only [hok] at h
      simp only [Bool.false_eq_true, if_false, Option.some.injEq] at h
      simp only [List.length_cons]; omega

theorem processed_cons {RF A I : Type} (call : RF → A → I → StepResult RF A) (self : RF)
    (out : A) (e : I) (es : List I) :
    processed call self out (e :: es) =
      if (call self out e).ok then
        processed call (call self out e).self (call self out e).out es + 1
      else 1 := by
  simp only [processed, firstStop]
  by_cases hok : (call self out e).ok = true
  · simp only [hok, if_true]
    cases h : firstStop call (call self out e).self (call self out e).out es with
    | none => simp
    | some j => simp only [Option.map_some', List.length_cons]; omega
  · simp [hok]

theorem invocations_eq_processed {RF A I : Type} (call : RF → A → I → StepResult RF A)
    (es : List I) : ∀ (self : RF) (out : A),
    invocations call self out es = processed call self out es := by
  induction es with
  | nil => intro self out; rfl
  | cons e es ih =>
    intro self out
    rw [processed_cons]; simp only [invocations, ih]

theorem processed_le {RF A I : Type} (call : RF → A → I → StepResult RF A)
    (es : List I) : ∀ (self : RF) (out : A), processed call self out es ≤ es.length := by
  induction es with
  | nil => intro self out; simp [processed, firstStop]
  | cons e es ih =>
    intro self out
    rw [processed_cons]
    have := ih (call self out e).self (call self out e).out
    split_ifs <;> simp only [List.length_cons] <;> omega

theorem runList_eq_foldSteps {RF A I : Type} (call : RF → A → I → StepResult RF A)
    (es : List I) : ∀ (self : RF) (out : A),
    runList call self out es = foldSteps call self out (es.take (processed call self out es)) := by
  induction es with
  | nil => intro self out; rfl
  | cons e es ih =>
    intro self out
    rw [processed_cons]
    by_cases hok : (call self out e).ok = true
    · simp only [runList, hok, if_true, List.take_succ_cons, foldSteps_cons]
      rw [ih]
      cases h : es.take (processed call (call self out e).self (call self out e).out es) with
      | nil =>
        simp only [foldSteps, List.foldl]
        rw [← hok]
      | cons e2 es2 => rfl
    · simp only [runList, hok]
      simp [foldSteps]

theorem runList_traced {RF A I : Type} (step : ReducingFn RF A I) (es : List I) :
    ∀ (self : RF) (log : List I) (out : A),
    runList (traced step).call (self, log) out es =
      { ok := (runList step.call self out es).ok,
        self := ((runList step.call self out es).self,
                 log ++ es.take (invocations step.call self out es)),
        out := (runList step.call self out es).out } := by
  induction es with
  | nil => intro self log out; simp [runList, invocations]
  | cons e es ih =>
    intro self log out
    simp only [runList, invocations, traced]
    by_cases hok : (step.call self out e).ok = true
    · simp only [hok, if_true]
      have := ih (step.call self out e).self (log ++ [e]) (step.call self out e).out
      simp only [traced] at this
      rw [this]; simp
    · simp [hok]

theorem invocations_traced {RF A I : Type} (step : ReducingFn RF A I) (es : List I) :
    ∀ (self : RF) (log : List I) (out : A),
    invocations (traced step).call (self, log) out es = invocations step.call self out es := by
  induction es with
  | nil => intro self log out; rfl
  | cons e es ih =>
    intro self log out
    simp only [invocations, traced]
    by_cases hok : (step.call self out e).ok = true
    · simp only [hok, if_true]
      have := ih (step.call self out e).self (log ++ [e]) (step.call self out e).out
      simp only [traced] at this
      rw [this]
    · simp [hok]

theorem runList_limit_emits {RF A I : Type} (down : RF → A → I → StepResult RF A) (L : Int)
    (es : List I) : ∀ (d : RF) (n : Int) (out : A),
    (runList (tr_limit_gen.apply.call down) { step := d, n := n, limit := L } out es).self.step =
        (runList down d out (limitEmits L n es)).self ∧
    (runList (tr_limit_gen.apply.call down) { step := d, n := n, limit := L } out es).out =
        (runList down d out (limitEmits L n es)).out := by
  induction es with
  | nil => intro d n out; exact ⟨rfl, rfl⟩
  | cons e es ih =>
    intro d n out
    by_cases hn : n > L
    · simp [runList, limitEmits, tr_limit_gen.apply.call, hn]
    · simp only [runList, limitEmits, tr_limit_gen.apply.call, hn, if_false]
      by_cases h : (down d out e).ok = true
      · simp only [h, if_true]; exact ih _ _ _
      · simp [h]

theorem limitEmits_eq_take {I : Type} (L : Int) (es : List I) : ∀ (c : Nat) (n : Int),
    n + c = L + 1 → -2 ^ 31 ≤ n → n + min es.length (c + 1) ≤ 2 ^ 31 →
    limitEmits L n es = es.take c := by
  induction es with
  | nil => intro c n _ _ _; simp [limitEmits]
  | cons e es ih =>
    intro c n hc hn hov
    cases c with
    | zero =>
      have : n > L := by omega
      simp [limitEmits, this]
    | succ c =>
      have hle : ¬ (n > L) := by push_cast at hc; omega
      simp only [limitEmits, hle, if_false, List.take_succ_cons, List.cons.injEq, true_and]
      cases es with
      | nil => simp [limitEmits]
      | cons e2 es2 =>
        have hw : int_wrap (n + 1) = n + 1 := by
          apply int_wrap_of_range
          · omega
          · simp only [List.length_cons] at hov; omega
        rw [hw]
        exact ih c (n + 1) (by push_cast at hc; omega) (by omega)
          (by simp only [List.length_cons] at hov ⊢; omega)

/-- With the cap `INT_MAX` a limit stage hands on every arriving element: no `int` counter
exceeds it. -/
theorem limitEmits_int_max {I : Type} (es : List I) : ∀ (n : Int), n < 2 ^ 31 →
    limitEmits (2 ^ 31 - 1) n es = es := by
  induction es with
  | nil => intro n _; rfl
  | cons e es ih =>
    intro n hn
    have h : ¬ (n > 2 ^ 31 - 1) := by omega
    simp only [limitEmits, h, if_false, List.cons.injEq, true_and]
    exact ih _ (int_wrap_range _).2

/-- A fresh `tr_limit(L)` stage with `L ≥ 0` hands on the first `L` arriving elements, as
long as its `int` counter cannot overflow. -/
theorem limitEmits_tr_limit {I : Type} (L : Int) (es : List I) (hL : 0 ≤ L)
    (hov : L < 2 ^ 31 - 1 ∨ es.length < 2 ^ 31) :
    limitEmits L 1 es = es.take L.toNat := by
  apply limitEmits_eq_take
  · rw [Int.toNat_of_nonneg hL]; ring
  · norm_num
  · have : ((min es.length (L.toNat + 1) : Nat) : Int) ≤ 2 ^ 31 - 1 := by
      rcases hov with h | h
      · have h1 : ((L.toNat + 1 : Nat) : Int) ≤ 2 ^ 31 - 1 := by
          push_cast; rw [Int.toNat_of_nonneg hL]; omega
        have h2 : min es.length (L.toNat + 1) ≤ L.toNat + 1 := Nat.min_le_right _ _
        omega
      · have h2 : min es.length (L.toNat + 1) ≤ es.length := Nat.min_le_left _ _
        omega
    omega

theorem stage_runList_out {I O RF A : Type} (t : tr_transducer I O)
    (down : RF → A → O → StepResult RF A) (d : RF) (out : A) (es : List I) :
    (runList (t.applyCall down) (t.make d) out es).out =
      (runList down d out (t.emits es)).out := by
  cases t with
  | map f =>
    simp only [tr_transducer.applyCall, tr_transducer.make, tr_transducer.emits]
    rw [runList_map]
  | filter p =>
    simp only [tr_transducer.applyCall, tr_transducer.make, tr_transducer.emits]
    rw [runList_filter_forwarded]
  | enumerate n => exact (runList_enumerate down es d n out).2.2
  | limit n l => exact (runList_limit_emits down l es d n out).2
  | each g =>
    simp only [tr_transducer.applyCall, tr_transducer.make, tr_transducer.emits]
    have := @runList_each RF A _ _ g es d g.self out
    simp only at this
    rw [this]; rfl

theorem chain_runList_out {I O : Type} (c : fn_chain_reversed I O) :
    ∀ {RF A : Type} (down : RF → A → O → StepResult RF A) (d : RF) (out : A) (es : List I),
    (runList (c.wrapCall down) (c.wrapSelf d) out es).out =
      (runList down d out (c.emits es)).out := by
  induction c with
  | nil => intro RF A down d out es; rfl
  | cons head tail ih =>
    intro RF A down d out es
    simp only [fn_chain_reversed.wrapCall, fn_chain_reversed.wrapSelf, fn_chain_reversed.emits]
    rw [ih, stage_runList_out]

theorem runList_push_back {O : Type} (es : List O) : ∀ (acc : List O),
    runList (@push_back_fn O).call () acc es = { ok := true, self := (), out := acc ++ es } := by
  induction es with
  | nil => intro acc; simp [runList]
  | cons e es ih =>
    intro acc
    simp only [runList, push_back_fn, if_true]
    have := ih (acc ++ [e])
    simp only [push_back_fn] at this
    rw [this]; simp

theorem runList_push_back_conv {O E : Type} (conv : O → E) (es : List O) :
    ∀ (acc : List E),
    runList (fun (self : Unit) (out : List E) (input : O) =>
        ({ ok := true, self := self, out := out ++ [conv input] } : StepResult Unit (List E)))
      () acc es = { ok := true, self := (), out := acc ++ es.map conv } := by
  induction es with
  | nil => intro acc; simp [runList]
  | cons e es ih =>
    intro acc
    simp only [runList, if_true]
    rw [ih (acc ++ [conv e])]; simp

/-- `fn_into_vector` of a non-empty chain returns the values that the chain hands to
`push_back`, converted to the element type of the first range. -/
theorem fn_into_vector_eq {I O : Type} (fuel : Nat) (c : fn_chain_reversed I O)
    (rs : Ranges I) (conv : O → rs.first_type) (hc : 0 < c.size) (hfuel : rs.shortest < fuel) :
    fn_into_vector fuel c rs conv = some ((c.emits rs.tuples).map conv) := by
  unfold fn_into_vector
  rw [fn_tr_transduce_eq fuel [] c _ rs hc hfuel, chain_runList_out]
  simp only
  rw [runList_push_back_conv]
  simp

theorem Pipeline.chain_size_pos {X I O : Type} (p : Pipeline I O) :
    ∀ (c : fn_chain_reversed X I), 0 < (p.chain c).size := by
  induction p with
  | last t => intro c; simp [Pipeline.chain, fn_chain_reversed.pipe, fn_chain_reversed.add,
      fn_chain_reversed.size]
  | cons t rest ih => intro c; exact ih _

theorem Pipeline.wrap_chain {X I O RF A : Type} (p : Pipeline I O) (B : ReducingFn RF A O) :
    ∀ (c : fn_chain_reversed X I), packed ((p.chain c).wrap B) = packed (c.wrap (p.nest B)) := by
  induction p with
  | last t => intro c; rfl
  | cons t rest ih => intro c; exact ih B (c.pipe t)

/-- Reducing with the step function that a non-empty chain makes of `push_back` returns
the packs that the chain hands to `push_back`. -/
theorem reduce_push_back_eq {I O : Type} (fuel : Nat) (c : fn_chain_reversed I O)
    (rs : Ranges I) (hc : 0 < c.size) (hfuel : rs.shortest < fuel) :
    (c.invoke push_back_fn).bind
        (fun transducer => (fn_tr_reduce fuel [] transducer rs).map Prod.fst) =
      some (c.emits rs.tuples) := by
  unfold fn_chain_reversed.invoke
  rw [fn_chain_reversed.call_eq_wrap c push_back_fn hc, Option.some_bind,
    fn_tr_reduce_eq fuel [] (c.wrap push_back_fn) rs hfuel, Option.map_some']
  show some (runList (c.wrapCall push_back_fn.call) (c.wrapSelf push_back_fn.self) []
    rs.tuples).out = _
  rw [chain_runList_out]
  have : (@push_back_fn O).self = () := rfl
  rw [this, runList_push_back]
  simp

theorem map_zip_eq_zipWith {α β γ : Type} (f : α × β → γ) (xs : List α) :
    ∀ (ys : List β), (List.zip xs ys).map f = List.zipWith (fun x y => f (x, y)) xs ys := by
  induction xs with
  | nil => intro ys; simp
  | cons x xs ih =>
    intro ys
    cases ys with
    | nil => simp
    | cons y ys => simp [ih ys]

theorem invocations_of_continue {RF A I : Type} (call : RF → A → I → StepResult RF A)
    (hcont : ∀ s a e, (call s a e).ok = true) (es : List I) :
    ∀ (self : RF) (out : A), invocations call self out es = es.length := by
  induction es with
  | nil => intro self out; rfl
  | cons e es ih => intro self out; simp [invocations, hcont, ih]

theorem runList_ok_of_continue {RF A I : Type} (call : RF → A → I → StepResult RF A)
    (hcont : ∀ s a e, (call s a e).ok = true) (es : List I) :
    ∀ (self : RF) (out : A), (runList call self out es).ok = true := by
  induction es with
  | nil => intro self out; rfl
  | cons e es ih => intro self out; simp [runList, hcont, ih]

theorem Ranges.lt_ends_iff {I : Type} (rs : Ranges I) (i : Nat) :
    (∀ last ∈ rs.ends, i < last) ↔ i < rs.shortest := by
  induction rs with
  | one r => simp [Ranges.ends, Ranges.shortest]
  | cons r rest ih =>
    simp only [Ranges.ends, Ranges.shortest, List.mem_cons, forall_eq_or_imp, ih]
    omega

theorem Ranges.shortest_mem_ends {I : Type} (rs : Ranges I) : rs.shortest ∈ rs.ends := by
  induction rs with
  | one r => simp [Ranges.ends, Ranges.shortest]
  | cons r rest ih =>
    simp only [Ranges.ends, Ranges.shortest, List.mem_cons]
    rcases Nat.le_total r.length rest.shortest with h | h
    · left; exact Nat.min_eq_left h
    · right; rw [Nat.min_eq_right h]; exact ih

theorem Ranges.shortest_le_ends {I : Type} (rs : Ranges I) :
    ∀ last ∈ rs.ends, rs.shortest ≤ last := by
  induction rs with
  | one r => simp [Ranges.ends, Ranges.shortest]
  | cons r rest ih =>
    simp only [Ranges.ends, Ranges.shortest, List.mem_cons, forall_eq_or_imp]
    refine ⟨Nat.min_le_left _ _, fun last h => ?_⟩
    exact Nat.le_trans (Nat.min_le_right _ _) (ih last h)

theorem length_enumFrom32 {I : Type} (es : List I) : ∀ (n : Int),
    (enumFrom32 n es).length = es.length := by
  induction es with
  | nil => intro n; rfl
  | cons e es ih => intro n; simp [enumFrom32, ih]

theorem take_enumFrom32 {I : Type} (es : List I) : ∀ (c : Nat) (n : Int),
    (enumFrom32 n es).take c = enumFrom32 n (es.take c) := by
  induction es with
  | nil => intro c n; simp [enumFrom32]
  | cons e es ih =>
    intro c n
    cases c with
    | zero => simp [enumFrom32]
    | succ c => simp [enumFrom32, ih]

theorem enumFrom32_eq_enumFrom {I : Type} (n0 : Int) (es : List I) : ∀ (k : Nat),
    -2 ^ 31 ≤ n0 + k → n0 + k + es.length ≤ 2 ^ 31 →
    enumFrom32 (n0 + k) es = (List.enumFrom k es).map (fun ix => (n0 + (ix.1 : Int), ix.2)) := by
  induction es with
  | nil => intro k _ _; rfl
  | cons e es ih =>
    intro k h1 h2
    simp only [enumFrom32, List.enumFrom_cons, List.map_cons, List.cons.injEq, true_and]
    cases es with
    | nil => rfl
    | cons e2 es2 =>
      have hw : int_wrap (n0 + k + 1) = n0 + ((k + 1 : Nat) : Int) := by
        rw [int_wrap_of_range]
        · push_cast; ring
        · omega
        · simp only [List.length_cons] at h2; push_cast at h2; omega
      rw [hw]
      apply ih
      · push_cast; omega
      · simp only [List.length_cons] at h2 ⊢; push_cast at h2 ⊢; omega

/-- Without overflow of the `int` index, `enumerate(n0)` pairs the `i`-th arriving
element with `n0 + i`. -/
theorem enumFrom32_eq_indexedFrom {I : Type} (n0 : Int) (es : List I) (h1 : -2 ^ 31 ≤ n0)
    (h2 : n0 + es.length ≤ 2 ^ 31) : enumFrom32 n0 es = indexedFrom n0 es := by
  have := enumFrom32_eq_enumFrom n0 es 0 (by simpa using h1) (by simpa using h2)
  simpa [indexedFrom, List.enum] using this

theorem int_wrap_add_one (a : Int) : int_wrap (int_wrap a + 1) = int_wrap (a + 1) := by
  unfold int_wrap
  omega

theorem enumFrom32_eq_enumFrom_wrap {I : Type} (n0 : Int) (es : List I) : ∀ (k : Nat),
    enumFrom32 (int_wrap (n0 + k)) es =
      (List.enumFrom k es).map (fun ix => (int_wrap (n0 + (ix.1 : Int)), ix.2)) := by
  induction es with
  | nil => intro k; rfl
  | cons e es ih =>
    intro k
    simp only [enumFrom32, List.enumFrom_cons, List.map_cons, List.cons.injEq, true_and]
    rw [int_wrap_add_one]
    have := ih (k + 1)
    rw [← this]
    congr 2
    push_cast; ring

/-- For a start index within `int`, `enumerate(n0)` pairs the `i`-th arriving element with
the `int` value of `n0 + i`. -/
theorem enumFrom32_eq_indexedFrom32 {I : Type} (n0 : Int) (es : List I)
    (h1 : -2 ^ 31 ≤ n0) (h2 : n0 < 2 ^ 31) : enumFrom32 n0 es = indexedFrom32 n0 es := by
  have := enumFrom32_eq_enumFrom_wrap n0 es 0
  simp only [Nat.cast_zero, add_zero, int_wrap_of_range n0 h1 h2] at this
  simpa [indexedFrom32, List.enum] using this

theorem indexedFrom32_eq_indexedFrom {I : Type} (n0 : Int) (es : List I)
    (h1 : -2 ^ 31 ≤ n0) (h2 : n0 + es.length ≤ 2 ^ 31) :
    indexedFrom32 n0 es = indexedFrom n0 es := by
  cases es with
  | nil => rfl
  | cons e es =>
    have h3 : n0 < 2 ^ 31 := by simp only [List.length_cons] at h2; push_cast at h2; omega
    rw [← enumFrom32_eq_indexedFrom32 n0 _ h1 h3, enumFrom32_eq_indexedFrom n0 _ h1 h2]

/-- The run of the fused step function `enumerate(filter(limit(each(base))))` over a list:
the accumulator and the base object are left as they were, and the effect function has
been called on the pairs that the limit stage handed on. -/
theorem runList_enumerate_filter_limit_each {RF A E I : Type} (d : RF) (n0 L : Int)
    (p : Int × I → Bool) (g : EachFn E (Int × I)) (out : A) (es : List I) :
    (runList
        (tr_enumerate_gen.apply.call
          (tr_filter_gen.apply.call (tr_limit_gen.apply.call tr_each_gen.apply.call)))
        { step := { step := { step := { step := d, each := g }, n := 1, limit := L },
                    pred := keeps p },
          n := n0 } out es).out = out ∧
    (runList
        (tr_enumerate_gen.apply.call
          (tr_filter_gen.apply.call (tr_limit_gen.apply.call tr_each_gen.apply.call)))
        { step := { step := { step := { step := d, each := g }, n := 1, limit := L },
                    pred := keeps p },
          n := n0 } out es).self.step.step.step =
      { step := d,
        each := { g with
          self := (limitEmits L 1 ((enumFrom32 n0 es).filter p)).foldl g.call g.self } } := by
  have h1 := runList_enumerate
    (tr_filter_gen.apply.call (tr_limit_gen.apply.call (@tr_each_gen.apply.call RF A E _)))
    es { step := { step := { step := d, each := g }, n := 1, limit := L }, pred := keeps p } n0 out
  have h2 := runList_filter (tr_limit_gen.apply.call (@tr_each_gen.apply.call RF A E _)) p
    (enumFrom32 n0 es) { step := { step := d, each := g }, n := 1, limit := L } out
  have h3 := runList_limit_emits (@tr_each_gen.apply.call RF A E _) L
    ((enumFrom32 n0 es).filter p) { step := d, each := g } 1 out
  have h4 := @runList_each RF A E _ g (limitEmits L 1 ((enumFrom32 n0 es).filter p)) d
    g.self out
  rw [h2] at h1
  rw [h4] at h3
  constructor
  · rw [h1.2.2]; exact h3.2
  · rw [h1.2.1]; exact h3.1

theorem length_limitEmits_le {I : Type} (L : Int) (es : List I) : ∀ (n : Int),
    (limitEmits L n es).length ≤ es.length := by
  induction es with
  | nil => intro n; simp [limitEmits]
  | cons e es ih =>
    intro n
    simp only [limitEmits]
    split_ifs
    · simp
    · simp only [List.length_cons]
      have := ih (int_wrap (n + 1))
      omega

theorem stage_length_emits_le {I O : Type} (t : tr_transducer I O) (es : List I) :
    (t.emits es).length ≤ es.length := by
  cases t with
  | map f => simp [tr_transducer.emits]
  | filter p =>
    simp only [tr_transducer.emits, List.length_map]
    exact List.length_filter_le _ _
  | enumerate n => simp [tr_transducer.emits, length_enumFrom32]
  | limit n l => exact length_limitEmits_le l es n
  | each g => simp [tr_transducer.emits]

theorem chain_length_emits_le {I O : Type} (c : fn_chain_reversed I O) :
    ∀ (es : List I), (c.emits es).length ≤ es.length := by
  induction c with
  | nil => intro es; exact Nat.le_refl _
  | cons head tail ih =>
    intro es
    exact Nat.le_trans (stage_length_emits_le head _) (ih es)

theorem foldl_recording_fn {I : Type} (es : List I) : ∀ (log : List I),
    es.foldl (@recording_fn I).call log = log ++ es := by
  induction es with
  | nil => intro log; simp
  | cons e es ih =>
    intro log
    simp only [List.foldl]
    rw [ih]
    simp [recording_fn]

/-- The fused step function of `tr | tr_enumerate(n0) | tr_filter(p) | tr_limit(L) |
tr_each(g)` driven over one source, for any base step function: the base object and the
accumulator are untouched and `g` is folded over the first `L` accepted pairs. -/
theorem fn_accum_impl_pipeline_eq {α E : Type} (xs : List α) (n0 L : Int)
    (p : Int × α → Bool) (g : EachFn E (Int × α)) (fuel : Nat) (hL : 0 ≤ L)
    (hn0 : -2 ^ 31 ≤ n0 ∧ n0 < 2 ^ 31) (hov : L < 2 ^ 31 - 1 ∨ xs.length < 2 ^ 31)
    (hfuel : xs.length < fuel) {RF A O : Type} (B : ReducingFn RF A O) (out : A) :
    (((((tr.pipe (tr_enumerate n0)).pipe (tr_filter (keeps p))).pipe (tr_limit L)).pipe
          (tr_each g)).invoke B).bind
        (fun step_wrap =>
          (fn_accum_impl fuel step_wrap out (Ranges.one xs)).map
            (fun s => (s.step.step.step.step.step, s.out,
              s.step.step.step.step.each.self))) =
      some (B.self, out,
        (((indexedFrom32 n0 xs).filter p).take L.toNat).foldl g.call g.self) := by
  have hem : limitEmits L 1 ((enumFrom32 n0 xs).filter p) =
      ((indexedFrom32 n0 xs).filter p).take L.toNat := by
    rw [enumFrom32_eq_indexedFrom32 n0 xs hn0.1 hn0.2]
    apply limitEmits_tr_limit L _ hL
    rcases hov with h | h
    · exact Or.inl h
    · right
      have h1 : ((indexedFrom32 n0 xs).filter p).length ≤ (indexedFrom32 n0 xs).length :=
        List.length_filter_le _ _
      have h2 : (indexedFrom32 n0 xs).length = xs.length := by
        simp [indexedFrom32, List.enum_length]
      omega
  unfold fn_chain_reversed.invoke
  rw [fn_chain_reversed.call_eq_wrap _ B (by simp [fn_chain_reversed.pipe,
    fn_chain_reversed.add, fn_chain_reversed.size]), Option.some_bind,
    fn_accum_impl_eq fuel _ out (Ranges.one xs) hfuel, Option.map_some']
  have h := @runList_enumerate_filter_limit_each RF A E α B.self n0 L p g out xs
  rw [← hem]
  exact congrArg some (Prod.ext (congrArg tr_each_gen.apply.step h.2)
    (Prod.ext h.1 (congrArg (fun s => s.each.self) h.2)))

theorem fn_tr_end_pipeline_eq {α E : Type} (xs : List α) (n0 L : Int)
    (p : Int × α → Bool) (g : EachFn E (Int × α)) (fuel : Nat) (hL : 0 ≤ L)
    (hn0 : -2 ^ 31 ≤ n0 ∧ n0 < 2 ^ 31) (hov : L < 2 ^ 31 - 1 ∨ xs.length < 2 ^ 31)
    (hfuel : xs.length < fuel) :
    (fn_tr_end fuel
        ((((tr.pipe (tr_enumerate n0)).pipe (tr_filter (keeps p))).pipe (tr_limit L)).pipe
          (tr_each g))
        (Ranges.one xs)).map (fun s => (s.step.step.step.step.each.self, s.out)) =
      some ((((indexedFrom32 n0 xs).filter p).take L.toNat).foldl g.call g.self, 0) := by
  have h := fn_accum_impl_pipeline_eq xs n0 L p g fuel hL hn0 hov hfuel noop_fn (0 : Int)
  unfold fn_tr_end
  cases hinv : ((((tr.pipe (tr_enumerate n0)).pipe (tr_filter (keeps p))).pipe (tr_limit L)).pipe
      (tr_each g)).invoke noop_fn with
  | none => rw [hinv] at h; simp at h
  | some sw =>
    rw [hinv] at h
    simp only [Option.some_bind] at h ⊢
    cases hacc : fn_accum_impl fuel sw 0 (Ranges.one xs) with
    | none => rw [hacc] at h; simp at h
    | some s =>
      rw [hacc] at h
      simp only [Option.map_some', Option.some.injEq, Prod.mk.injEq] at h ⊢
      exact ⟨h.2.2, h.2.1⟩

/-! ## The claims -/

/-- C1: for every sequence `T1, ..., Tn` of `n ≥ 1` transducers and every base step
function `B`, the chain `tr | T1 | ... | Tn` applied to `B` is the step function
`T1(T2(...Tn(B)...))`, of the same class and with the same value: `T1` is the outermost
wrapper and `B` the innermost; spelled out for one, two and three transducers. -/
theorem chain_apply_nests_first_outermost {I O RF A : Type} (p : Pipeline I O)
    (B : ReducingFn RF A O) :
    ((p.chain tr).invoke B).map packed = some (packed (p.nest B)) ∧
    (∀ (T1 : tr_transducer I O), (tr.pipe T1).invoke B = some (T1.app B)) ∧
    (∀ {M : Type} (T1 : tr_transducer I M) (T2 : tr_transducer M O),
      ((tr.pipe T1).pipe T2).invoke B = some (T1.app (T2.app B))) ∧
    (∀ {M N : Type} (T1 : tr_transducer I M) (T2 : tr_transducer M N)
        (T3 : tr_transducer N O),
      (((tr.pipe T1).pipe T2).pipe T3).invoke B = some (T1.app (T2.app (T3.app B)))) := by
  refine ⟨?_, fun _ => rfl, fun _ _ => rfl, fun _ _ _ => rfl⟩
  unfold fn_chain_reversed.invoke
  rw [fn_chain_reversed.call_eq_wrap _ B (Pipeline.chain_size_pos p tr), Option.map_some',
    Pipeline.wrap_chain p B tr]
  rfl

/-- C2: with fuel for one more round than the shortest source has elements,
`fn_accum_impl` leaves its loop with the step function object, the accumulator and the
flag `ok` equal to the fold of the step function over the zipped tuples `0 .. m - 1`, where
`m = min(length of the shortest source, j + 1)` for `j` the index of the first tuple on
which the step returns stop (the result of the stopping call is kept); the accumulator
returned by `fn_tr_reduce` and by `fn_tr_transduce` is the one of that fold; and the step
function is called on exactly the tuples `0 .. m - 1`, in order. -/
theorem driver_folds_until_first_stop {RF A I : Type} (step : ReducingFn RF A I) (out : A)
    (ranges : Ranges I) (fuel : Nat) (hfuel : ranges.shortest < fuel) :
    fn_accum_impl fuel step out ranges =
        some { step := (foldProcessed step out ranges).self,
               out := (foldProcessed step out ranges).out,
               firsts := ranges.begins.map
                 (· + processed step.call step.self out ranges.tuples),
               ok := (foldProcessed step out ranges).ok } ∧
    (fn_tr_reduce fuel out step ranges).map Prod.fst =
        some (foldProcessed step out ranges).out ∧
    (fn_accum_impl fuel (traced step) out ranges).map (fun s => s.step.2) =
        some (ranges.tuples.take (processed step.call step.self out ranges.tuples)) ∧
    (∀ {X RF2 : Type} (c : fn_chain_reversed I X) (rf : ReducingFn RF2 A X)
        (fused : ReducingFn (c.final_type RF2) A I), c.invoke rf = some fused →
        fn_tr_transduce fuel out c rf ranges = some (foldProcessed fused out ranges).out) := by
  have key : ∀ {RF3 : Type} (st : ReducingFn RF3 A I),
      runList st.call st.self out ranges.tuples = foldProcessed st out ranges :=
    fun st => runList_eq_foldSteps st.call ranges.tuples st.self out
  refine ⟨?_, ?_, ?_, ?_⟩
  · rw [fn_accum_impl_eq fuel step out ranges hfuel, key step, invocations_eq_processed]
  · rw [fn_tr_reduce_eq fuel out step ranges hfuel, key step]; rfl
  · rw [fn_accum_impl_eq fuel (traced step) out ranges hfuel]
    have h := runList_traced step ranges.tuples step.self [] out
    have h2 : (traced step).self = (step.self, []) := rfl
    rw [h2, h, invocations_eq_processed]
    simp
  · intro X RF2 c rf fused hc
    unfold fn_tr_transduce
    rw [hc]
    simp only
    rw [fn_accum_impl_eq fuel fused out ranges hfuel, key fused]

/-- C2, witness: a limit of one element pushing into a vector, over a source of three
elements; the stopping call is the second one. -/
theorem driver_folds_until_first_stop_witness :
    (Ranges.one [(10 : Int), 20, 30]).shortest < 4 ∧
    (fn_accum_impl 4 (traced ((tr_limit 1).app push_back_fn)) ([] : List Int)
        (Ranges.one [(10 : Int), 20, 30])).map (fun s => s.step.2) = some [10, 20] ∧
    (fn_tr_reduce 4 ([] : List Int) ((tr_limit 1).app push_back_fn)
        (Ranges.one [(10 : Int), 20, 30])).map Prod.fst = some [10] :=
  ⟨by decide,
   ((driver_folds_until_first_stop ((tr_limit 1).app push_back_fn) ([] : List Int)
      (Ranges.one [(10 : Int), 20, 30]) 4 (by decide)).2.2.1).trans (by decide),
   ((driver_folds_until_first_stop ((tr_limit 1).app push_back_fn) ([] : List Int)
      (Ranges.one [(10 : Int), 20, 30]) 4 (by decide)).2.1).trans (by decide)⟩

/-- C3: what the code does. For every list `xs`, mapping `f`, cap `L ≥ 0` (with `L` below
`INT_MAX` or fewer than `2^31` elements, so that the `int` counter of the limit stage does
not overflow) and every predicate, reducing the step function that
`tr | tr_map(f) | tr_filter(p) | tr_limit(L)` makes of `push_back` over `xs` from the empty
vector returns the first `L` of the mapped values that the predicate accepts, each as
the call of the predicate left it: the filter stage forwards the value to the predicate and
then again to its wrapped step. For a predicate whose call leaves its argument as it was
this is `take L (filter p (map f xs))`, and for `xs = [1,2,3,4,5,6]`, `f = 2*x`,
`p = (3 < x < 10)`, `L = 2` the result is `[4, 6]`. For a predicate that takes a
`std::string` by value the mapped value, an rvalue, is moved into the parameter: for
`xs = ["a","bb","ccc"]`, `f = s + "!"`, `p = (size > 2)`, `L = 2` the result is two
moved-from (empty) strings, where `take L (filter p (map f xs))` is `["bb!", "ccc!"]`. -/
theorem reduce_map_filter_limit {α β : Type} (xs : List α) (f : α → β)
    (pred : β → Bool × β) (p : β → Bool)
    (L : Int) (fuel : Nat) (hL : 0 ≤ L) (hov : L < 2 ^ 31 - 1 ∨ xs.length < 2 ^ 31)
    (hfuel : xs.length < fuel) :
    ((((tr.pipe (tr_map f)).pipe (tr_filter pred)).pipe (tr_limit L)).invoke
        push_back_fn).bind
        (fun transducer => (fn_tr_reduce fuel [] transducer (Ranges.one xs)).map Prod.fst) =
      some ((((xs.map f).filter (fun e => (pred e).1)).map (fun e => (pred e).2)).take
        L.toNat) ∧
    ((((tr.pipe (tr_map f)).pipe (tr_filter (keeps p))).pipe (tr_limit L)).invoke
        push_back_fn).bind
        (fun transducer => (fn_tr_reduce fuel [] transducer (Ranges.one xs)).map Prod.fst) =
      some (((xs.map f).filter p).take L.toNat) ∧
    ((((tr.pipe (tr_map (fun x : Int => 2 * x))).pipe
          (tr_filter (keeps (fun x : Int => decide (x > 3 ∧ x < 10))))).pipe (tr_limit 2)).invoke
        push_back_fn).bind
        (fun transducer =>
          (fn_tr_reduce 7 [] transducer (Ranges.one [1, 2, 3, 4, 5, 6])).map Prod.fst) =
      some [4, 6] ∧
    ((((tr.pipe (tr_map (fun s : String => s ++ "!"))).pipe
          (tr_filter (moves (fun s : String => decide (s.length > 2)) (fun _ => "")))).pipe
          (tr_limit 2)).invoke push_back_fn).bind
        (fun transducer =>
          (fn_tr_reduce 4 [] transducer (Ranges.one ["a", "bb", "ccc"])).map Prod.fst) =
      some ["", ""] ∧
    ((["a", "bb", "ccc"].map (fun s : String => s ++ "!")).filter
        (fun s : String => decide (s.length > 2))).take (2 : Int).toNat = ["bb!", "ccc!"] := by
  have key : ∀ (q : β → Bool × β),
      ((((tr.pipe (tr_map f)).pipe (tr_filter q)).pipe (tr_limit L)).invoke
        push_back_fn).bind
        (fun transducer => (fn_tr_reduce fuel [] transducer (Ranges.one xs)).map Prod.fst) =
      some ((((xs.map f).filter (fun e => (q e).1)).map (fun e => (q e).2)).take
        L.toNat) := by
    intro q
    rw [reduce_push_back_eq fuel _ (Ranges.one xs) (by simp [fn_chain_reversed.pipe,
      fn_chain_reversed.add, fn_chain_reversed.size]) hfuel]
    show some (limitEmits L 1 (((xs.map f).filter (fun e => (q e).1)).map
      (fun e => (q e).2))) = _
    rw [limitEmits_tr_limit L _ hL]
    rcases hov with h | h
    · exact Or.inl h
    · right
      have h1 : ((xs.map f).filter (fun e => (q e).1)).length ≤ (xs.map f).length :=
        List.length_filter_le _ _
      rw [List.length_map] at h1 ⊢
      omega
  refine ⟨key pred, ?_, by decide, by decide, by decide⟩
  rw [key (keeps p), filter_map_keeps]

/-- C3, witness: the source `["a", "bb", "ccc"]` with `f = s + "!"`, a by-value predicate
`size > 2` on the rvalue that the mapping returns, and `L = 2`. -/
theorem reduce_map_filter_limit_witness :
    (0 : Int) ≤ 2 ∧
    ((2 : Int) < 2 ^ 31 - 1 ∨ ["a", "bb", "ccc"].length < 2 ^ 31) ∧
    ["a", "bb", "ccc"].length < 4 ∧
    ((((tr.pipe (tr_map (fun s : String => s ++ "!"))).pipe
          (tr_filter (moves (fun s : String => decide (s.length > 2)) (fun _ => "")))).pipe
          (tr_limit 2)).invoke push_back_fn).bind
        (fun transducer =>
          (fn_tr_reduce 4 [] transducer (Ranges.one ["a", "bb", "ccc"])).map Prod.fst) =
      some ["", ""] :=
  ⟨by decide, Or.inl (by decide), by decide,
   ((reduce_map_filter_limit ["a", "bb", "ccc"] (fun s : String => s ++ "!")
      (moves (fun s : String => decide (s.length > 2)) (fun _ => ""))
      (fun s : String => decide (s.length > 2)) 2 4 (by decide) (Or.inl (by decide))
      (by decide)).1).trans (by decide)⟩

/-- C4: limit exactness. For every non-empty chain `c`, every cap `L ≥ 0` and every pack
of sources (with `L` below `INT_MAX` or a shortest source of fewer than `2^31` elements, so
that the `int` counter of the appended limit stage does not overflow), and whatever the
conversion to the element type of the vector is,
`fn_into_vector(c | tr_limit(L), xs)` has length `min(L, length(fn_into_vector(c, xs)))`
and is the prefix of that length of `fn_into_vector(c, xs)`; appended to the empty chain,
the limit collects the first `L` elements of the source. -/
theorem limit_exactness {I O : Type} (c : fn_chain_reversed I O) (L : Int)
    (ranges : Ranges I) (fuel : Nat) (hc : 0 < c.size) (hL : 0 ≤ L)
    (hov : L < 2 ^ 31 - 1 ∨ ranges.shortest < 2 ^ 31) (hfuel : ranges.shortest < fuel) :
    (∀ (conv : O → ranges.first_type), ∃ v w, fn_into_vector fuel c ranges conv = some v ∧
      fn_into_vector fuel (c.pipe (tr_limit L)) ranges conv = some w ∧
      w.length = min L.toNat v.length ∧ w = v.take L.toNat) ∧
    (∀ (conv : I → ranges.first_type),
      fn_into_vector fuel (tr.pipe (tr_limit L)) ranges conv =
        some ((ranges.tuples.take L.toNat).map conv)) := by
  have key : ∀ {X : Type} (d : fn_chain_reversed I X) (conv : X → ranges.first_type),
      fn_into_vector fuel (d.pipe (tr_limit L)) ranges conv =
        some (((d.emits ranges.tuples).map conv).take L.toNat) := by
    intro X d conv
    rw [fn_into_vector_eq fuel _ ranges conv (by simp [fn_chain_reversed.pipe,
      fn_chain_reversed.add, fn_chain_reversed.size]) hfuel]
    show some ((limitEmits L 1 (d.emits ranges.tuples)).map conv) = _
    rw [limitEmits_tr_limit L _ hL, List.map_take]
    rcases hov with h | h
    · exact Or.inl h
    · right
      have h1 := chain_length_emits_le d ranges.tuples
      rw [Ranges.length_tuples] at h1
      omega
  refine ⟨fun conv => ⟨(c.emits ranges.tuples).map conv,
    ((c.emits ranges.tuples).map conv).take L.toNat,
    fn_into_vector_eq fuel c ranges conv hc hfuel, key c conv, List.length_take _ _, rfl⟩, ?_⟩
  intro conv
  rw [key tr conv, List.map_take]
  rfl

/-- C4, witness: the chain `tr | tr_filter(x > 1) | tr_map(x * 10)` over `[1, 2, 3, 4]`
collects `[20, 30, 40]`, and `[20, 30]` with `tr_limit(2)` appended. -/
theorem limit_exactness_witness :
    0 < ((tr.pipe (tr_filter (keeps (fun x : Int => decide (x > 1))))).pipe
          (tr_map (fun x : Int => x * 10))).size ∧
    (0 : Int) ≤ 2 ∧
    ((2 : Int) < 2 ^ 31 - 1 ∨ (Ranges.one [(1 : Int), 2, 3, 4]).shortest < 2 ^ 31) ∧
    (Ranges.one [(1 : Int), 2, 3, 4]).shortest < 5 ∧
    fn_into_vector 5 ((tr.pipe (tr_filter (keeps (fun x : Int => decide (x > 1))))).pipe
        (tr_map (fun x : Int => x * 10))) (Ranges.one [1, 2, 3, 4]) (fun x : Int => x) =
      some [20, 30, 40] ∧
    ∃ v w,
      fn_into_vector 5 ((tr.pipe (tr_filter (keeps (fun x : Int => decide (x > 1))))).pipe
          (tr_map (fun x : Int => x * 10))) (Ranges.one [1, 2, 3, 4]) (fun x : Int => x) =
        some v ∧
      fn_into_vector 5 (((tr.pipe (tr_filter (keeps (fun x : Int => decide (x > 1))))).pipe
          (tr_map (fun x : Int => x * 10))).pipe (tr_limit 2)) (Ranges.one [1, 2, 3, 4])
          (fun x : Int => x) = some w ∧
      w.length = min (2 : Int).toNat v.length ∧ w = v.take (2 : Int).toNat :=
  ⟨by decide, by decide, Or.inl (by decide), by decide, by decide,
   (limit_exactness ((tr.pipe (tr_filter (keeps (fun x : Int => decide (x > 1))))).pipe
      (tr_map (fun x : Int => x * 10))) 2 (Ranges.one [1, 2, 3, 4]) 5
    (by decide) (by decide) (Or.inl (by decide)) (by decide)).1 (fun x : Int => x)⟩

/-- C5, counterexample: the source is a `std::vector<unsigned char>` holding `1, 2, 3`, the
chain `c` is `tr | tr_map(x * 100)` with values `100, 200, 300` of type `int`, and `p` is
`v > 250`. Collecting converts to `unsigned char` (modulo `256`):
`fn_into_vector(c, xs)` is `[100, 200, 44]`, none of whose elements satisfies `p`, and
`fn_into_vector(c | tr_filter(p), xs)` is `[44]`. -/
theorem filter_non_interference_counterexample :
    fn_into_vector 4 (tr.pipe (tr_map (fun x : Int => x * 100))) (Ranges.one [1, 2, 3])
        (fun v : Int => v % 256) = some [100, 200, 44] ∧
    fn_into_vector 4 ((tr.pipe (tr_map (fun x : Int => x * 100))).pipe
        (tr_filter (keeps (fun v : Int => decide (v > 250))))) (Ranges.one [1, 2, 3])
        (fun v : Int => v % 256) = some [44] ∧
    fn_into_vector 4 ((tr.pipe (tr_map (fun x : Int => x * 100))).pipe
        (tr_filter (keeps (fun v : Int => decide (v > 250))))) (Ranges.one [1, 2, 3])
        (fun v : Int => v % 256) ≠
      (fn_into_vector 4 (tr.pipe (tr_map (fun x : Int => x * 100))) (Ranges.one [1, 2, 3])
        (fun v : Int => v % 256)).map (List.filter (fun v : Int => decide (v > 250))) := by
  decide

/-- C5, amended: filter non-interference up to the conversion made by collecting. For
every non-empty chain `c` (chains with limit or enumerate stages included), every
predicate `p` whose call leaves its argument as it was and every pack of sources,
`fn_into_vector(c, xs)` is the list of the values that `c` delivers, each converted to the
element type of the first source, and `fn_into_vector(c | tr_filter(p), xs)` is the list of
those delivered values that satisfy `p`, in the same order, converted likewise. When `p`
gives the same answer on a value and on its conversion, and in particular when `c`
delivers values of the element type, so that nothing is converted, it is the list of the
elements of `fn_into_vector(c, xs)` that satisfy `p`; appended to the empty chain, the
filter collects the elements of the source that satisfy `p`. -/
theorem filter_non_interference {I O : Type} (c : fn_chain_reversed I O) (p : O → Bool)
    (ranges : Ranges I) (conv : O → ranges.first_type) (fuel : Nat) (hc : 0 < c.size)
    (hfuel : ranges.shortest < fuel) :
    fn_into_vector fuel c ranges conv = some ((c.emits ranges.tuples).map conv) ∧
    fn_into_vector fuel (c.pipe (tr_filter (keeps p))) ranges conv =
      some (((c.emits ranges.tuples).filter p).map conv) ∧
    (∀ (q : ranges.first_type → Bool), (∀ o, q (conv o) = p o) →
      ∃ v, fn_into_vector fuel c ranges conv = some v ∧
        fn_into_vector fuel (c.pipe (tr_filter (keeps p))) ranges conv = some (v.filter q)) ∧
    (∀ (d : fn_chain_reversed I ranges.first_type) (q : ranges.first_type → Bool),
      0 < d.size →
      ∃ v, fn_into_vector fuel d ranges (fun x => x) = some v ∧
        fn_into_vector fuel (d.pipe (tr_filter (keeps q))) ranges (fun x => x) =
          some (v.filter q)) ∧
    (∀ (q : I → Bool) (conv0 : I → ranges.first_type),
      fn_into_vector fuel (tr.pipe (tr_filter (keeps q))) ranges conv0 =
        some ((ranges.tuples.filter q).map conv0)) := by
  have key : ∀ {X : Type} (d : fn_chain_reversed I X) (q : X → Bool)
      (cv : X → ranges.first_type),
      fn_into_vector fuel (d.pipe (tr_filter (keeps q))) ranges cv =
        some (((d.emits ranges.tuples).filter q).map cv) := by
    intro X d q cv
    rw [fn_into_vector_eq fuel _ ranges cv (by simp [fn_chain_reversed.pipe,
      fn_chain_reversed.add, fn_chain_reversed.size]) hfuel]
    show some ((((d.emits ranges.tuples).filter (fun e => (keeps q e).1)).map
      (fun e => (keeps q e).2)).map cv) = _
    rw [filter_map_keeps]
  refine ⟨fn_into_vector_eq fuel c ranges conv hc hfuel, key c p conv, ?_, ?_, ?_⟩
  · intro q hq
    refine ⟨_, fn_into_vector_eq fuel c ranges conv hc hfuel, ?_⟩
    rw [key c p conv, List.filter_map]
    have : (q ∘ conv) = p := funext hq
    rw [this]
  · intro d q hd
    refine ⟨_, fn_into_vector_eq fuel d ranges (fun x => x) hd hfuel, ?_⟩
    rw [key d q (fun x => x)]
    simp
  · intro q conv0
    exact key tr q conv0

/-- C5, witness: the chain `tr | tr_enumerate(0) | tr_limit(3) | tr_map(idx + x)` over
`[10, 20, 30, 40]` collects `[10, 21, 32]`; with `tr_filter(x odd)` appended, `[21]`. -/
theorem filter_non_interference_witness :
    0 < (((tr.pipe (tr_enumerate 0)).pipe (tr_limit 3)).pipe
          (tr_map (fun q : Int × Int => q.1 + q.2))).size ∧
    (Ranges.one [(10 : Int), 20, 30, 40]).shortest < 5 ∧
    fn_into_vector 5 (((tr.pipe (tr_enumerate 0)).pipe (tr_limit 3)).pipe
        (tr_map (fun q : Int × Int => q.1 + q.2))) (Ranges.one [10, 20, 30, 40])
        (fun x : Int => x) = some [10, 21, 32] ∧
    fn_into_vector 5 ((((tr.pipe (tr_enumerate 0)).pipe (tr_limit 3)).pipe
        (tr_map (fun q : Int × Int => q.1 + q.2))).pipe
        (tr_filter (keeps (fun x : Int => Int.tmod x 2 != 0)))) (Ranges.one [10, 20, 30, 40])
        (fun x : Int => x) = some [21] :=
  ⟨by decide, by decide,
   ((filter_non_interference (((tr.pipe (tr_enumerate 0)).pipe (tr_limit 3)).pipe
      (tr_map (fun q : Int × Int => q.1 + q.2))) (fun x : Int => Int.tmod x 2 != 0)
    (Ranges.one [10, 20, 30, 40]) (fun x : Int => x) 5 (by decide) (by decide)).1).trans
      (by decide),
   ((filter_non_interference (((tr.pipe (tr_enumerate 0)).pipe (tr_limit 3)).pipe
      (tr_map (fun q : Int × Int => q.1 + q.2))) (fun x : Int => Int.tmod x 2 != 0)
    (Ranges.one [10, 20, 30, 40]) (fun x : Int => x) 5 (by decide) (by decide)).2.1).trans
      (by decide)⟩

/-- C6: for all functions `f` and `g`, every wrapped step function `B`, accumulator and
element, one call of `tr_map(f)(tr_map(g)(B))` returns the same bool and leaves the same
accumulator and the same `B` as one call of `tr_map(x -> g(f(x)))(B)`; hence over every
pack of sources the pipeline `tr | tr_map(f) | tr_map(g)` collects the same vector as
`tr | tr_map(x -> g(f(x)))`, the list of the `g(f(x))` (each converted to the element
type of the vector, when that is another type); and for `xs = [1..6]`,
`f = x -> [1..x]`, `g = sum`, followed by `filter(x > 4)`, it collects
`[6, 10, 15, 21]`. -/
theorem map_map_composition {I M O RF A : Type} (f : I → M) (g : M → O)
    (B : ReducingFn RF A O) (out : A) (e : I) (ranges : Ranges I)
    (conv : O → ranges.first_type) (fuel : Nat) (hfuel : ranges.shortest < fuel) :
    (((tr_map f).app ((tr_map g).app B)).call ((tr_map f).app ((tr_map g).app B)).self
        out e).ok =
      (((tr_map (fun x => g (f x))).app B).call ((tr_map (fun x => g (f x))).app B).self
        out e).ok ∧
    (((tr_map f).app ((tr_map g).app B)).call ((tr_map f).app ((tr_map g).app B)).self
        out e).out =
      (((tr_map (fun x => g (f x))).app B).call ((tr_map (fun x => g (f x))).app B).self
        out e).out ∧
    (tr_map_gen.apply.step (tr_map_gen.apply.step
        (((tr_map f).app ((tr_map g).app B)).call ((tr_map f).app ((tr_map g).app B)).self
          out e).self)) =
      tr_map_gen.apply.step
        (((tr_map (fun x => g (f x))).app B).call ((tr_map (fun x => g (f x))).app B).self
          out e).self ∧
    fn_into_vector fuel ((tr.pipe (tr_map f)).pipe (tr_map g)) ranges conv =
      fn_into_vector fuel (tr.pipe (tr_map (fun x => g (f x)))) ranges conv ∧
    fn_into_vector fuel ((tr.pipe (tr_map f)).pipe (tr_map g)) ranges conv =
      some (ranges.tuples.map (fun x => conv (g (f x)))) ∧
    fn_into_vector 7
        (((tr.pipe (tr_map (fun x : Int => (List.range x.toNat).map (fun i => (i : Int) + 1)))).pipe
          (tr_map (fun v : List Int => v.foldl (fun sum x => sum + x) 0))).pipe
          (tr_filter (keeps (fun x : Int => decide (x > 4)))))
        (Ranges.one [1, 2, 3, 4, 5, 6]) (fun x : Int => x) =
      some [6, 10, 15, 21] := by
  have h1 : fn_into_vector fuel ((tr.pipe (tr_map f)).pipe (tr_map g)) ranges conv =
      some (ranges.tuples.map (fun x => conv (g (f x)))) := by
    rw [fn_into_vector_eq fuel _ _ conv (by simp [fn_chain_reversed.pipe,
      fn_chain_reversed.add, fn_chain_reversed.size]) hfuel]
    show some (((ranges.tuples.map f).map g).map conv) = _
    rw [List.map_map, List.map_map]; rfl
  have h2 : fn_into_vector fuel (tr.pipe (tr_map (fun x => g (f x)))) ranges conv =
      some (ranges.tuples.map (fun x => conv (g (f x)))) := by
    rw [fn_into_vector_eq fuel _ _ conv (by simp [fn_chain_reversed.pipe,
      fn_chain_reversed.add, fn_chain_reversed.size]) hfuel]
    show some ((ranges.tuples.map (fun x => g (f x))).map conv) = _
    rw [List.map_map]; rfl
  exact ⟨rfl, rfl, rfl, h1.trans h2.symm, h1, by decide⟩

/-- C6, witness: `f = x + 1`, `g = 2 * x` over `[1, 2, 3]`. -/
theorem map_map_composition_witness :
    (Ranges.one [(1 : Int), 2, 3]).shortest < 4 ∧
    fn_into_vector 4 ((tr.pipe (tr_map (fun x : Int => x + 1))).pipe
        (tr_map (fun x : Int => 2 * x))) (Ranges.one [1, 2, 3]) (fun x : Int => x) =
      some [4, 6, 8] :=
  ⟨by decide,
   ((map_map_composition (fun x : Int => x + 1) (fun x : Int => 2 * x)
      (@push_back_fn Int) [] 1 (Ranges.one [1, 2, 3]) (fun x : Int => x) 4
      (by decide)).2.2.2.2.1).trans (by decide)⟩

/-- C7, counterexample: `xs` is a `std::vector<unsigned char>` holding `1, 2, 3`, `ys` a
`std::vector<int>` holding `100, 100, 100`, `f = x * y` with results `100, 200, 300` of
type `int`, and `p = (v > 250)`: `filter p (zipWith f xs ys)` is `[300]`, and
`fn_into_vector`, which collects into a vector of the element type of `xs` (conversion
modulo `256`), returns `[44]`. -/
theorem into_vector_zip_map_filter_counterexample :
    fn_into_vector 4
        ((tr.pipe (tr_map (fun q : Int × Int => q.1 * q.2))).pipe
          (tr_filter (keeps (fun v : Int => decide (v > 250)))))
        (Ranges.cons [1, 2, 3] (Ranges.one [100, 100, 100])) (fun v : Int => v % 256) =
      some [44] ∧
    (List.zipWith (fun x y : Int => x * y) [1, 2, 3] [100, 100, 100]).filter
        (fun v : Int => decide (v > 250)) = [300] ∧
    fn_into_vector 4
        ((tr.pipe (tr_map (fun q : Int × Int => q.1 * q.2))).pipe
          (tr_filter (keeps (fun v : Int => decide (v > 250)))))
        (Ranges.cons [1, 2, 3] (Ranges.one [100, 100, 100])) (fun v : Int => v % 256) ≠
      some ((List.zipWith (fun x y : Int => x * y) [1, 2, 3] [100, 100, 100]).filter
        (fun v : Int => decide (v > 250))) := by
  decide

/-- C7, amended: for every two sources `xs`, `ys`, binary mapping `f` and predicate `p`
whose call leaves its argument as it was,
`fn_into_vector(tr | tr_map(f) | tr_filter(p), xs, ys)` is
`filter p (zipWith f xs ys)`, the zip ending with the shorter source, with every element
converted to the element type of `xs`, which is the element type of the collected
vector; when `f` returns values of that type it is `filter p (zipWith f xs ys)` itself;
for `xs = [1,2,3,4,5,6]`, `ys = [4,5,6,7]`, `f = x + y`, `p = (x > 5)` it is
`[7, 9, 11]`. -/
theorem into_vector_zip_map_filter {α β γ : Type} (xs : List α) (ys : List β)
    (f : α × β → γ) (p : γ → Bool) (conv : γ → α) (fuel : Nat)
    (hfuel : min xs.length ys.length < fuel) :
    fn_into_vector fuel ((tr.pipe (tr_map f)).pipe (tr_filter (keeps p)))
        (Ranges.cons xs (Ranges.one ys)) conv =
      some (((List.zipWith (fun x y => f (x, y)) xs ys).filter p).map conv) ∧
    (∀ (g : α × β → α) (q : α → Bool),
      fn_into_vector fuel ((tr.pipe (tr_map g)).pipe (tr_filter (keeps q)))
          (Ranges.cons xs (Ranges.one ys)) (fun x => x) =
        some ((List.zipWith (fun x y => g (x, y)) xs ys).filter q)) ∧
    fn_into_vector 5
        ((tr.pipe (tr_map (fun q : Int × Int => q.1 + q.2))).pipe
          (tr_filter (keeps (fun x : Int => decide (x > 5)))))
        (Ranges.cons [1, 2, 3, 4, 5, 6] (Ranges.one [4, 5, 6, 7])) (fun x : Int => x) =
      some [7, 9, 11] := by
  have key : ∀ {δ : Type} (g : α × β → δ) (q : δ → Bool) (cv : δ → α),
      fn_into_vector fuel ((tr.pipe (tr_map g)).pipe (tr_filter (keeps q)))
          (Ranges.cons xs (Ranges.one ys)) cv =
        some (((List.zipWith (fun x y => g (x, y)) xs ys).filter q).map cv) := by
    intro δ g q cv
    rw [fn_into_vector_eq fuel _ (Ranges.cons xs (Ranges.one ys)) cv
      (by simp [fn_chain_reversed.pipe, fn_chain_reversed.add, fn_chain_reversed.size])
      (by simpa [Ranges.shortest] using hfuel)]
    show some (((((List.zip xs ys).map g).filter (fun e => (keeps q e).1)).map
      (fun e => (keeps q e).2)).map cv) = _
    rw [filter_map_keeps, map_zip_eq_zipWith]
  refine ⟨key f p conv, ?_, by decide⟩
  intro g q
  rw [key g q (fun x => x)]
  simp

/-- C7, witness: sources of lengths three and two. -/
theorem into_vector_zip_map_filter_witness :
    min [(1 : Int), 2, 3].length [(10 : Int), 20].length < 3 ∧
    fn_into_vector 3
        ((tr.pipe (tr_map (fun q : Int × Int => q.1 * q.2))).pipe
          (tr_filter (keeps (fun x : Int => decide (x > 15)))))
        (Ranges.cons [1, 2, 3] (Ranges.one [10, 20])) (fun x : Int => x) =
      some [40] :=
  ⟨by decide,
   ((into_vector_zip_map_filter [1, 2, 3] [10, 20] (fun q : Int × Int => q.1 * q.2)
      (fun x : Int => decide (x > 15)) (fun x : Int => x) 3 (by decide)).1).trans
      (by decide)⟩

/-- C8: for every pack of `k ≥ 1` sources and every step function that always returns
continue, `tuple_all_neq` holds exactly when the two tuples differ at every position, so
with all iterators at a common position `i` not beyond the shortest source the loop
condition `tuple_all_neq(firsts, lasts)` holds exactly when every iterator is before its
end; the step function is called exactly `min(len(source_1), ..., len(source_k))`
times, the `i`-th call receiving the `i`-th element of every source, and the loop is left
with every iterator at that minimum; for two sources of lengths 4 and 7 exactly 4 tuples
are processed. -/
theorem driver_truncates_to_shortest {RF A I : Type} (step : ReducingFn RF A I) (out : A)
    (ranges : Ranges I) (fuel : Nat) (hcont : ∀ s a e, (step.call s a e).ok = true)
    (hfuel : ranges.shortest < fuel) :
    (∀ t1 t2 : List Nat, tuple_all_neq t1 t2 = true ↔ ∀ q ∈ List.zip t1 t2, q.1 ≠ q.2) ∧
    (∀ i, i ≤ ranges.shortest →
      (tuple_all_neq (ranges.begins.map (· + i)) ranges.ends = true ↔
        ∀ last ∈ ranges.ends, i < last)) ∧
    (ranges.shortest ∈ ranges.ends ∧ ∀ last ∈ ranges.ends, ranges.shortest ≤ last) ∧
    (fn_accum_impl fuel (traced step) out ranges).map
        (fun s => (s.step.2, s.firsts, s.ok)) =
      some (ranges.tuples, ranges.begins.map (· + ranges.shortest), true) ∧
    ranges.tuples.length = ranges.shortest ∧
    (∀ i, i < ranges.shortest →
      ranges.tuples[i]? = ranges.deref (ranges.begins.map (· + i)) ∧
      (ranges.tuples[i]?).isSome = true) ∧
    (∀ {α β RF2 A2 : Type} (xs : List α) (ys : List β) (st : ReducingFn RF2 A2 (α × β))
        (o : A2), xs.length = 4 → ys.length = 7 → (∀ s a e, (st.call s a e).ok = true) →
        (fn_accum_impl 5 (traced st) o (Ranges.cons xs (Ranges.one ys))).map
            (fun s => s.step.2.length) = some 4) := by
  have run : ∀ {J RF3 A3 : Type} (st : ReducingFn RF3 A3 J) (o : A3) (rs : Ranges J)
      (fl : Nat), (∀ s a e, (st.call s a e).ok = true) → rs.shortest < fl →
      (fn_accum_impl fl (traced st) o rs).map (fun s => (s.step.2, s.firsts, s.ok)) =
        some (rs.tuples, rs.begins.map (· + rs.shortest), true) := by
    intro J RF3 A3 st o rs fl hc hf
    rw [fn_accum_impl_eq fl (traced st) o rs hf]
    have h2 : (traced st).self = (st.self, []) := rfl
    rw [h2, runList_traced, invocations_traced, invocations_of_continue st.call hc,
      runList_ok_of_continue st.call hc, Ranges.length_tuples]
    simp [← Ranges.length_tuples]
  refine ⟨tuple_all_neq_iff, ?_, ⟨Ranges.shortest_mem_ends _, Ranges.shortest_le_ends _⟩,
    run step out ranges fuel hcont hfuel, Ranges.length_tuples _, ?_, ?_⟩
  · intro i hi
    rw [Ranges.tuple_all_neq_pos ranges i hi, Ranges.lt_ends_iff]
    simp
  · intro i hi
    rw [Ranges.deref_pos]
    refine ⟨rfl, ?_⟩
    rw [List.getElem?_eq_getElem (by rw [Ranges.length_tuples]; exact hi)]
    rfl
  · intro α β RF2 A2 xs ys st o hx hy hc
    have h := run st o (Ranges.cons xs (Ranges.one ys)) 5 hc
      (by simp [Ranges.shortest, hx, hy])
    cases hr : fn_accum_impl 5 (traced st) o (Ranges.cons xs (Ranges.one ys)) with
    | none => rw [hr] at h; simp at h
    | some s =>
      rw [hr] at h
      simp only [Option.map_some', Option.some.injEq, Prod.mk.injEq] at h ⊢
      rw [h.1, Ranges.length_tuples]
      simp [Ranges.shortest, hx, hy]

/-- C8, witness: a base appending the pair of its two arguments, over sources of lengths
2 and 3. -/
theorem driver_truncates_to_shortest_witness :
    (∀ s a e, ((@emplace_back_fn Int Int).call s a e).ok = true) ∧
    (Ranges.cons [(1 : Int), 2] (Ranges.one [(10 : Int), 20, 30])).shortest < 3 ∧
    (fn_accum_impl 3 (traced (@emplace_back_fn Int Int)) []
        (Ranges.cons [1, 2] (Ranges.one [10, 20, 30]))).map
        (fun s => (s.step.2, s.firsts, s.ok)) =
      some ([(1, 10), (2, 20)], [2, 2], true) :=
  ⟨fun _ _ _ => rfl, by decide,
   ((driver_truncates_to_shortest (@emplace_back_fn Int Int) []
      (Ranges.cons [1, 2] (Ranges.one [10, 20, 30])) 3 (fun _ _ _ => rfl)
      (by decide)).2.2.2.1).trans (by decide)⟩

/-- C9: for every source `xs`, start index `n0` (an `int`), cap `L ≥ 0` (below `INT_MAX`,
or with fewer than `2^31` elements, so that the counter of the limit stage stays an `int`)
and binary mapping `f`, reducing the step function that
`tr | tr_enumerate(n0) | tr_limit(L) | tr_map(f)` makes of `push_back` over `xs` returns
`[f(n0 + i, xs[i]) for i = 0 .. min(L, len(xs)) - 1]`, the index `n0 + i` being computed as
an `int`; it is the integer `n0 + i` whenever `n0 + min(L, len(xs))` does not exceed
`2^31`; for `xs = ["a","b","c","d"]`, `n0 = 1`, `L = 3` and `f` formatting
`elements[idx]=s` the result is `["elements[1]=a", "elements[2]=b", "elements[3]=c"]`. -/
theorem reduce_enumerate_limit_map {α β : Type} (xs : List α) (n0 L : Int)
    (f : Int × α → β) (fuel : Nat) (hL : 0 ≤ L) (hn0 : -2 ^ 31 ≤ n0 ∧ n0 < 2 ^ 31)
    (hov : L < 2 ^ 31 - 1 ∨ xs.length < 2 ^ 31) (hfuel : xs.length < fuel) :
    ((((tr.pipe (tr_enumerate n0)).pipe (tr_limit L)).pipe (tr_map f)).invoke
        push_back_fn).bind
        (fun enumerateStrings =>
          (fn_tr_reduce fuel [] enumerateStrings (Ranges.one xs)).map Prod.fst) =
      some ((indexedFrom32 n0 (xs.take L.toNat)).map f) ∧
    (n0 + (min L.toNat xs.length : Nat) ≤ 2 ^ 31 →
      ((((tr.pipe (tr_enumerate n0)).pipe (tr_limit L)).pipe (tr_map f)).invoke
          push_back_fn).bind
          (fun enumerateStrings =>
            (fn_tr_reduce fuel [] enumerateStrings (Ranges.one xs)).map Prod.fst) =
        some ((indexedFrom n0 (xs.take L.toNat)).map f)) ∧
    ((((tr.pipe (tr_enumerate 1)).pipe (tr_limit 3)).pipe
          (tr_map (fun q : Int × String => "elements[" ++ toString q.1 ++ "]=" ++ q.2))).invoke
        push_back_fn).bind
        (fun enumerateStrings =>
          (fn_tr_reduce 5 [] enumerateStrings (Ranges.one ["a", "b", "c", "d"])).map
            Prod.fst) =
      some ["elements[1]=a", "elements[2]=b", "elements[3]=c"] := by
  have h : ((((tr.pipe (tr_enumerate n0)).pipe (tr_limit L)).pipe (tr_map f)).invoke
        push_back_fn).bind
        (fun enumerateStrings =>
          (fn_tr_reduce fuel [] enumerateStrings (Ranges.one xs)).map Prod.fst) =
      some ((indexedFrom32 n0 (xs.take L.toNat)).map f) := by
    rw [reduce_push_back_eq fuel _ (Ranges.one xs) (by simp [fn_chain_reversed.pipe,
      fn_chain_reversed.add, fn_chain_reversed.size]) hfuel]
    show some ((limitEmits L 1 (enumFrom32 n0 xs)).map f) = _
    rw [limitEmits_tr_limit L _ hL (by rw [length_enumFrom32]; exact hov), take_enumFrom32,
      enumFrom32_eq_indexedFrom32 n0 _ hn0.1 hn0.2]
  refine ⟨h, fun hidx => ?_, by decide⟩
  rw [h, indexedFrom32_eq_indexedFrom n0 _ hn0.1 (by rw [List.length_take]; exact hidx)]

/-- C9, witness: three elements from index 10 with cap 2. -/
theorem reduce_enumerate_limit_map_witness :
    (0 : Int) ≤ 2 ∧ (-2 ^ 31 ≤ (10 : Int) ∧ (10 : Int) < 2 ^ 31) ∧
    ((2 : Int) < 2 ^ 31 - 1 ∨ [(1 : Int), 2, 3].length < 2 ^ 31) ∧
    [(1 : Int), 2, 3].length < 4 ∧
    ((((tr.pipe (tr_enumerate 10)).pipe (tr_limit 2)).pipe
          (tr_map (fun q : Int × Int => q.1 * q.2))).invoke push_back_fn).bind
        (fun enumerateStrings =>
          (fn_tr_reduce 4 [] enumerateStrings (Ranges.one [1, 2, 3])).map Prod.fst) =
      some [10, 22] :=
  ⟨by decide, by decide, Or.inl (by decide), by decide,
   ((reduce_enumerate_limit_map [1, 2, 3] 10 2 (fun q : Int × Int => q.1 * q.2) 4
      (by decide) (by decide) (Or.inl (by decide)) (by decide)).1).trans
    (by decide)⟩

/-- C10: for every source `xs`, start index `n0` (an `int`), binary predicate `p`, cap
`L ≥ 0` (below `INT_MAX`, or with fewer than `2^31` elements, so that the counter of the
limit stage stays an `int`) and effect function `g`,
`fn_tr_end(tr | tr_enumerate(n0) | tr_filter(p) | tr_limit(L) | tr_each(g), xs)` calls
`g`, in source order, on exactly the first `L` of the pairs `(n0 + i, xs[i])` that satisfy
`p`, the rejected elements keeping their indices, and leaves `out` at `0`: the effect
function object ends as the fold of `g` over those pairs, and a recording effect function
ends with exactly those pairs as its record; the index `n0 + i` is computed as an `int` and
is the integer `n0 + i` whenever `n0 + len(xs)` does not exceed `2^31`; whatever base step
function the chain is applied to, the run leaves the base object and the accumulator
untouched; for `xs = [3,4,5,6,7,8,9]`, `n0 = 0`, `p = (idx odd)`, `L = 3` the calls are
`g(1,4)`, `g(3,6)`, `g(5,8)`. The predicate is called on an `int` and an element of the
source, which its call leaves as they were. -/
theorem end_enumerate_filter_limit_each {α E : Type} (xs : List α) (n0 L : Int)
    (p : Int × α → Bool) (g : EachFn E (Int × α)) (fuel : Nat) (hL : 0 ≤ L)
    (hn0 : -2 ^ 31 ≤ n0 ∧ n0 < 2 ^ 31) (hov : L < 2 ^ 31 - 1 ∨ xs.length < 2 ^ 31)
    (hfuel : xs.length < fuel) :
    (fn_tr_end fuel
        ((((tr.pipe (tr_enumerate n0)).pipe (tr_filter (keeps p))).pipe (tr_limit L)).pipe
          (tr_each g))
        (Ranges.one xs)).map (fun s => (s.step.step.step.step.each.self, s.out)) =
      some ((((indexedFrom32 n0 xs).filter p).take L.toNat).foldl g.call g.self, 0) ∧
    (fn_tr_end fuel
        ((((tr.pipe (tr_enumerate n0)).pipe (tr_filter (keeps p))).pipe (tr_limit L)).pipe
          (tr_each recording_fn))
        (Ranges.one xs)).map (fun s => s.step.step.step.step.each.self) =
      some (((indexedFrom32 n0 xs).filter p).take L.toNat) ∧
    (n0 + xs.length ≤ 2 ^ 31 →
      (fn_tr_end fuel
          ((((tr.pipe (tr_enumerate n0)).pipe (tr_filter (keeps p))).pipe (tr_limit L)).pipe
            (tr_each g))
          (Ranges.one xs)).map (fun s => (s.step.step.step.step.each.self, s.out)) =
        some ((((indexedFrom n0 xs).filter p).take L.toNat).foldl g.call g.self, 0)) ∧
    (∀ {RF A O : Type} (B : ReducingFn RF A O) (out : A),
      (((((tr.pipe (tr_enumerate n0)).pipe (tr_filter (keeps p))).pipe (tr_limit L)).pipe
            (tr_each g)).invoke B).bind
          (fun step_wrap =>
            (fn_accum_impl fuel step_wrap out (Ranges.one xs)).map
              (fun s => (s.step.step.step.step.step, s.out,
                s.step.step.step.step.each.self))) =
        some (B.self, out,
          (((indexedFrom32 n0 xs).filter p).take L.toNat).foldl g.call g.self)) ∧
    (fn_tr_end 8
        ((((tr.pipe (tr_enumerate 0)).pipe
            (tr_filter (keeps (fun q : Int × Int => Int.tmod q.1 2 != 0)))).pipe (tr_limit 3)).pipe
          (tr_each recording_fn))
        (Ranges.one [3, 4, 5, 6, 7, 8, 9])).map
        (fun s => s.step.step.step.step.each.self) =
      some [(1, 4), (3, 6), (5, 8)] := by
  have main := fn_tr_end_pipeline_eq xs n0 L p g fuel hL hn0 hov hfuel
  have hrec := fn_tr_end_pipeline_eq xs n0 L p recording_fn fuel hL hn0 hov hfuel
  refine ⟨main, ?_, fun hidx => ?_, fn_accum_impl_pipeline_eq xs n0 L p g fuel hL hn0 hov hfuel,
    by decide⟩
  · cases hr : fn_tr_end fuel
        ((((tr.pipe (tr_enumerate n0)).pipe (tr_filter (keeps p))).pipe (tr_limit L)).pipe
          (tr_each recording_fn)) (Ranges.one xs) with
    | none => rw [hr] at hrec; simp at hrec
    | some s =>
      rw [hr] at hrec
      simp only [Option.map_some', Option.some.injEq, Prod.mk.injEq] at hrec ⊢
      rw [hrec.1, foldl_recording_fn]
      rfl
  · rw [main, indexedFrom32_eq_indexedFrom n0 xs hn0.1 hidx]

/-- C10, witness: indices from 10, the pairs with product above 25 kept, a cap of one,
the effect function adding up the elements. -/
theorem end_enumerate_filter_limit_each_witness :
    (0 : Int) ≤ 1 ∧ (-2 ^ 31 ≤ (10 : Int) ∧ (10 : Int) < 2 ^ 31) ∧
    ((1 : Int) < 2 ^ 31 - 1 ∨ [(2 : Int), 3, 4].length < 2 ^ 31) ∧
    [(2 : Int), 3, 4].length < 4 ∧
    (fn_tr_end 4
        ((((tr.pipe (tr_enumerate 10)).pipe
            (tr_filter (keeps (fun q : Int × Int => decide (q.1 * q.2 > 25))))).pipe
            (tr_limit 1)).pipe
          (tr_each { self := (0 : Int), call := fun sum q => sum + q.2 }))
        (Ranges.one [2, 3, 4])).map (fun s => (s.step.step.step.step.each.self, s.out)) =
      some (3, 0) :=
  ⟨by decide, by decide, Or.inl (by decide), by decide,
   ((end_enumerate_filter_limit_each [2, 3, 4] 10 1
      (fun q : Int × Int => decide (q.1 * q.2 > 25))
      { self := (0 : Int), call := fun sum q => sum + q.2 } 4
      (by decide) (by decide) (Or.inl (by decide)) (by decide)).1).trans
    (by decide)⟩

/-! ## Filter before enumerate -/

/-- The run of the fused step function `filter(enumerate(base))` over a list is the run of
the base over the accepted elements paired with consecutive `int` indices. -/
theorem runList_filter_enumerate {RF A I : Type} (down : RF → A → Int × I → StepResult RF A)
    (d : RF) (n0 : Int) (p : I → Bool) (out : A) (es : List I) :
    (runList (tr_filter_gen.apply.call (tr_enumerate_gen.apply.call down))
        { step := { step := d, n := n0 }, pred := keeps p } out es).self.step.step =
      (runList down d out (enumFrom32 n0 (es.filter p))).self ∧
    (runList (tr_filter_gen.apply.call (tr_enumerate_gen.apply.call down))
        { step := { step := d, n := n0 }, pred := keeps p } out es).out =
      (runList down d out (enumFrom32 n0 (es.filter p))).out := by
  have h1 := runList_filter (tr_enumerate_gen.apply.call down) p es
    { step := d, n := n0 } out
  have h2 := runList_enumerate down (es.filter p) d n0 out
  rw [h1]
  exact ⟨h2.2.1, h2.2.2⟩

/-- C11: for every source `xs`, unary predicate `p` and start index `n0` (an `int`), the
fused step function of `tr | tr_filter(p) | tr_enumerate(n0)` hands to its wrapped step
exactly the pairs `(n0 + j, y_j)`, `j = 0, 1, 2, ...`, for `y_0, y_1, ...` the elements of
`xs` that satisfy `p` in source order (up to the call on which the wrapped step returns
stop, all of them when it never does): rejected elements take no index. The index
`n0 + j` is computed as an `int` and is the integer `n0 + j` when `n0` plus the number of
accepted elements does not exceed `2^31`. The predicate is called on the elements of the
source, which its call leaves as they were. -/
theorem filter_then_enumerate_consecutive {α RF A : Type} (xs : List α) (p : α → Bool)
    (n0 : Int) (B : ReducingFn RF A (Int × α)) (out : A) (fuel : Nat)
    (hn0 : -2 ^ 31 ≤ n0 ∧ n0 < 2 ^ 31) (hfuel : xs.length < fuel) :
    (((tr.pipe (tr_filter (keeps p))).pipe (tr_enumerate n0)).invoke B).bind
        (fun fused =>
          (fn_accum_impl fuel fused out (Ranges.one xs)).map
            (fun s => (s.step.step.step, s.out))) =
      some ((runList B.call B.self out (indexedFrom32 n0 (xs.filter p))).self,
            (runList B.call B.self out (indexedFrom32 n0 (xs.filter p))).out) ∧
    (((tr.pipe (tr_filter (keeps p))).pipe (tr_enumerate n0)).invoke (traced B)).bind
        (fun fused =>
          (fn_accum_impl fuel fused out (Ranges.one xs)).map
            (fun s => s.step.step.step.2)) =
      some ((indexedFrom32 n0 (xs.filter p)).take
        (invocations B.call B.self out (indexedFrom32 n0 (xs.filter p)))) ∧
    ((∀ s a e, (B.call s a e).ok = true) →
      (((tr.pipe (tr_filter (keeps p))).pipe (tr_enumerate n0)).invoke (traced B)).bind
          (fun fused =>
            (fn_accum_impl fuel fused out (Ranges.one xs)).map
              (fun s => s.step.step.step.2)) =
        some (indexedFrom32 n0 (xs.filter p))) ∧
    fn_tr_transduce fuel [] ((tr.pipe (tr_filter (keeps p))).pipe (tr_enumerate n0))
        emplace_back_fn (Ranges.one xs) =
      some (indexedFrom32 n0 (xs.filter p)) ∧
    (n0 + (xs.filter p).length ≤ 2 ^ 31 →
      fn_tr_transduce fuel [] ((tr.pipe (tr_filter (keeps p))).pipe (tr_enumerate n0))
          emplace_back_fn (Ranges.one xs) =
        some (indexedFrom n0 (xs.filter p))) ∧
    fn_tr_transduce 7 []
        ((tr.pipe (tr_filter (keeps (fun x : Int => Int.tmod x 2 != 0)))).pipe (tr_enumerate 5))
        emplace_back_fn (Ranges.one [3, 4, 5, 6, 7, 8]) =
      some [(5, 3), (6, 5), (7, 7)] := by
  have key : ∀ {RF2 : Type} (D : ReducingFn RF2 A (Int × α)),
      (((tr.pipe (tr_filter (keeps p))).pipe (tr_enumerate n0)).invoke D).bind
        (fun fused =>
          (fn_accum_impl fuel fused out (Ranges.one xs)).map
            (fun s => (s.step.step.step, s.out))) =
      some ((runList D.call D.self out (indexedFrom32 n0 (xs.filter p))).self,
            (runList D.call D.self out (indexedFrom32 n0 (xs.filter p))).out) := by
    intro RF2 D
    unfold fn_chain_reversed.invoke
    rw [fn_chain_reversed.call_eq_wrap _ D (by simp [fn_chain_reversed.pipe,
      fn_chain_reversed.add, fn_chain_reversed.size]), Option.some_bind,
      fn_accum_impl_eq fuel _ out (Ranges.one xs) hfuel, Option.map_some']
    have h := runList_filter_enumerate D.call D.self n0 p out xs
    rw [← enumFrom32_eq_indexedFrom32 n0 _ hn0.1 hn0.2]
    exact congrArg some (Prod.ext h.1 h.2)
  have hlog : (((tr.pipe (tr_filter (keeps p))).pipe (tr_enumerate n0)).invoke (traced B)).bind
        (fun fused =>
          (fn_accum_impl fuel fused out (Ranges.one xs)).map
            (fun s => s.step.step.step.2)) =
      some ((indexedFrom32 n0 (xs.filter p)).take
        (invocations B.call B.self out (indexedFrom32 n0 (xs.filter p)))) := by
    have h := key (traced B)
    cases hinv : ((tr.pipe (tr_filter (keeps p))).pipe (tr_enumerate n0)).invoke (traced B) with
    | none => rw [hinv] at h; simp at h
    | some fused =>
      rw [hinv] at h
      simp only [Option.some_bind] at h ⊢
      cases hacc : fn_accum_impl fuel fused out (Ranges.one xs) with
      | none => rw [hacc] at h; simp at h
      | some s =>
        rw [hacc] at h
        simp only [Option.map_some', Option.some.injEq, Prod.mk.injEq] at h ⊢
        rw [h.1]
        have h2 : (traced B).self = (B.self, []) := rfl
        rw [h2, runList_traced]
        simp
  have hvec : fn_tr_transduce fuel []
      ((tr.pipe (tr_filter (keeps p))).pipe (tr_enumerate n0)) emplace_back_fn
      (Ranges.one xs) = some (indexedFrom32 n0 (xs.filter p)) := by
    rw [fn_tr_transduce_eq fuel [] _ emplace_back_fn (Ranges.one xs)
      (by simp [fn_chain_reversed.pipe, fn_chain_reversed.add, fn_chain_reversed.size])
      hfuel, chain_runList_out]
    have h := runList_push_back
      (((tr.pipe (tr_filter (keeps p))).pipe (tr_enumerate n0)).emits (Ranges.one xs).tuples) []
    have h2 : ((tr.pipe (tr_filter (keeps p))).pipe (tr_enumerate n0)).emits
        (Ranges.one xs).tuples = enumFrom32 n0 (xs.filter p) := by
      show enumFrom32 n0 ((xs.filter (fun e => (keeps p e).1)).map
        (fun e => (keeps p e).2)) = _
      rw [filter_map_keeps]
    rw [h2] at h ⊢
    have h3 : (runList (@emplace_back_fn Int α).call (@emplace_back_fn Int α).self []
        (enumFrom32 n0 (xs.filter p))).out = [] ++ enumFrom32 n0 (xs.filter p) :=
      congrArg StepResult.out h
    rw [h3, List.nil_append, enumFrom32_eq_indexedFrom32 n0 _ hn0.1 hn0.2]
  refine ⟨key B, hlog, fun hcont => ?_, hvec, fun hidx => ?_, by decide⟩
  · rw [hlog, invocations_of_continue B.call hcont]
    simp
  · rw [hvec, indexedFrom32_eq_indexedFrom n0 _ hn0.1 hidx]

/-- C11, witness: indices from 5 over `[3, 4, 5, 6, 7, 8]`, the odd elements accepted. -/
theorem filter_then_enumerate_consecutive_witness :
    (-2 ^ 31 ≤ (5 : Int) ∧ (5 : Int) < 2 ^ 31) ∧ [(3 : Int), 4, 5, 6, 7, 8].length < 7 ∧
    fn_tr_transduce 7 []
        ((tr.pipe (tr_filter (keeps (fun x : Int => Int.tmod x 2 != 0)))).pipe (tr_enumerate 5))
        emplace_back_fn (Ranges.one [3, 4, 5, 6, 7, 8]) =
      some [(5, 3), (6, 5), (7, 7)] :=
  ⟨by decide, by decide,
   ((filter_then_enumerate_consecutive [3, 4, 5, 6, 7, 8]
      (fun x : Int => Int.tmod x 2 != 0) 5 (@emplace_back_fn Int Int) [] 7 (by decide)
      (by decide)).2.2.2.1).trans (by decide)⟩

/-! ## The empty chain -/

theorem invocations_map {RF A I O : Type} (down : RF → A → O → StepResult RF A) (f : I → O)
    (es : List I) : ∀ (d : RF) (out : A),
    invocations (tr_map_gen.apply.call down) { step := d, mapping := f } out es =
      invocations down d out (es.map f) := by
  induction es with
  | nil => intro d out; rfl
  | cons e es ih =>
    intro d out
    simp only [invocations, List.map, tr_map_gen.apply.call]
    by_cases h : (down d out (f e)).ok = true
    · simp only [h, if_true]; rw [ih]
    · simp [h]

/-- C12, counterexample: the empty chain `tr` applied to the `push_back` step function
does not yield that step function (the application is ill-formed), and collecting through
`tr` does not give what driving `push_back` directly gives. -/
theorem empty_chain_identity_counterexample :
    (@tr Int).invoke (@push_back_fn Int) ≠ some push_back_fn ∧
    fn_tr_transduce 4 ([] : List Int) (@tr Int) push_back_fn (Ranges.one [1, 2, 3]) ≠
      (fn_tr_reduce 4 ([] : List Int) push_back_fn (Ranges.one [1, 2, 3])).map Prod.fst ∧
    (fn_tr_reduce 4 ([] : List Int) push_back_fn (Ranges.one [1, 2, 3])).map Prod.fst =
      some [1, 2, 3] ∧
    fn_into_vector 4 (@tr Int) (Ranges.one [1, 2, 3]) (fun x : Int => x) = none := by
  refine ⟨?_, ?_, by decide, rfl⟩
  · intro h
    have h2 : (@tr Int).invoke (@push_back_fn Int) = none := rfl
    rw [h2] at h
    cases h
  · intro h
    have h2 : fn_tr_transduce 4 ([] : List Int) (@tr Int) push_back_fn
        (Ranges.one [1, 2, 3]) = none := rfl
    have h3 : (fn_tr_reduce 4 ([] : List Int) push_back_fn (Ranges.one [1, 2, 3])).map
        Prod.fst = some [1, 2, 3] := by decide
    rw [h2, h3] at h
    cases h

/-- C12, amended: the empty chain `tr` has no well-formed application, so neither it nor
a terminal operation on it yields a result; it is neutral for building chains, `tr | T`
applied to `B` being `T(B)` with no further wrapper; and the chain whose only stage hands
on every element unchanged, `tr | tr_map(identity)`, applied to `B` and driven over any
pack of sources from any accumulator, leaves the same accumulator, base object, iterators
and flag as `B` driven directly. -/
theorem empty_chain_neutral_not_applicable {I RF A : Type} (B : ReducingFn RF A I)
    (out : A) (ranges : Ranges I) (fuel : Nat) (hfuel : ranges.shortest < fuel) :
    (@tr I).invoke B = none ∧
    fn_tr_transduce fuel out (@tr I) B ranges = none ∧
    (∀ (conv : I → ranges.first_type), fn_into_vector fuel (@tr I) ranges conv = none) ∧
    (∀ {O RF2 A2 : Type} (T : tr_transducer I O) (B2 : ReducingFn RF2 A2 O),
      (tr.pipe T).invoke B2 = some (T.app B2)) ∧
    (∃ r, fn_accum_impl fuel B out ranges = some r ∧
      ((tr.pipe (tr_map (fun x : I => x))).invoke B).bind
          (fun fused =>
            (fn_accum_impl fuel fused out ranges).map
              (fun s => (s.step.step, s.out, s.firsts, s.ok))) =
        some (r.step, r.out, r.firsts, r.ok)) ∧
    (∃ a, fn_tr_reduce fuel out B ranges = some a ∧
      fn_tr_transduce fuel out (tr.pipe (tr_map (fun x : I => x))) B ranges = some a.1) := by
  have hrun : runList (tr_map_gen.apply.call B.call)
      { step := B.self, mapping := fun x : I => x } out ranges.tuples =
      { ok := (runList B.call B.self out ranges.tuples).ok,
        self := { step := (runList B.call B.self out ranges.tuples).self,
                  mapping := fun x : I => x },
        out := (runList B.call B.self out ranges.tuples).out } := by
    rw [runList_map, List.map_id']
  refine ⟨rfl, rfl, fun _ => rfl, fun _ _ => rfl, ?_, ?_⟩
  · refine ⟨_, fn_accum_impl_eq fuel B out ranges hfuel, ?_⟩
    show (some ((tr_map (fun x : I => x)).app B)).bind _ = _
    rw [Option.some_bind, fn_accum_impl_eq fuel _ out ranges hfuel, Option.map_some']
    show some ((runList (tr_map_gen.apply.call B.call)
      { step := B.self, mapping := fun x : I => x } out ranges.tuples).self.step,
      (runList (tr_map_gen.apply.call B.call)
      { step := B.self, mapping := fun x : I => x } out ranges.tuples).out,
      ranges.begins.map (· + invocations (tr_map_gen.apply.call B.call)
      { step := B.self, mapping := fun x : I => x } out ranges.tuples),
      (runList (tr_map_gen.apply.call B.call)
      { step := B.self, mapping := fun x : I => x } out ranges.tuples).ok) = _
    rw [hrun, invocations_map, List.map_id']
  · refine ⟨_, fn_tr_reduce_eq fuel out B ranges hfuel, ?_⟩
    rw [fn_tr_transduce_eq fuel out _ B ranges
      (by simp [fn_chain_reversed.pipe, fn_chain_reversed.add, fn_chain_reversed.size]) hfuel]
    show some (runList (tr_map_gen.apply.call B.call)
      { step := B.self, mapping := fun x : I => x } out ranges.tuples).out = _
    rw [hrun]

/-- C12, witness: `push_back` over `[1, 2, 3]`; the empty chain gives no result, the
identity map stage collects the source. -/
theorem empty_chain_neutral_not_applicable_witness :
    (Ranges.one [1, 2, 3]).shortest < 4 ∧
    (@tr Int).invoke (@push_back_fn Int) = none ∧
    fn_into_vector 4 (@tr Int) (Ranges.one [1, 2, 3]) (fun x : Int => x) = none ∧
    fn_tr_transduce 4 ([] : List Int) (tr.pipe (tr_map (fun x : Int => x))) push_back_fn
      (Ranges.one [1, 2, 3]) = some [1, 2, 3] :=
  ⟨by decide,
   (empty_chain_neutral_not_applicable (@push_back_fn Int) [] (Ranges.one [1, 2, 3]) 4
     (by decide)).1,
   (empty_chain_neutral_not_applicable (@push_back_fn Int) [] (Ranges.one [1, 2, 3]) 4
     (by decide)).2.2.1 (fun x : Int => x),
   by decide⟩

/-! ## One invocation of an `each` stage -/

/-- C13: one invocation, on the pack `e`, of the step built by `tr_each(g)` over any
downstream `B`, from any state `s` of the stage and any accumulator `out`, returns `true`,
returns the accumulator unchanged, leaves the stored downstream object unchanged, and
replaces the state of `g` by the result of exactly one call `g(e)`; the call does not
depend on the call operator of `B`, which is never invoked: the log of an instrumented
downstream is unchanged, and a recording effect function started empty holds exactly
`[e]` afterwards. -/
theorem each_step_one_effect_no_downstream {I O E RF A : Type} (g : EachFn E I)
    (B : ReducingFn RF A O) (s : tr_each_gen.apply RF E I) (out : A) (e : I)
    (st : tr_each_gen.apply (RF × List O) E I) :
    ((tr_each g).app B).call s out e =
      { ok := true,
        self := { step := s.step, each := { s.each with self := s.each.call s.each.self e } },
        out := out } ∧
    ((tr_each g).app B).self = { step := B.self, each := g } ∧
    (((tr_each g).app B).call ((tr_each g).app B).self out e).self.each.self =
      g.call g.self e ∧
    (∀ (B2 : ReducingFn RF A O), ((tr_each g).app B2).call = ((tr_each g).app B).call) ∧
    (((tr_each g).app (traced B)).call st out e).self.step = st.step ∧
    (((tr_each g).app (traced B)).call ((tr_each g).app (traced B)).self out e).self.step.2 =
      [] ∧
    (((tr_each (@recording_fn I)).app B).call ((tr_each (@recording_fn I)).app B).self
      out e).self.each.self = [e] :=
  ⟨rfl, rfl, rfl, fun _ => rfl, rfl, rfl, rfl⟩

/-! ## Reuse of a chain -/

/-- One call of a map, filter or enumerate stage either returns `true` with the
accumulator and the wrapped object unchanged, or returns what one call of the wrapped step
returns. -/
theorem stage_call_cases {I O RF A : Type} (t : tr_transducer I O)
    (h : t.isMapFilterEnumerate = true) (down : RF → A → O → StepResult RF A)
    (s : t.Apply RF) (out : A) (e : I) :
    ((t.applyCall down s out e).ok = true ∧ (t.applyCall down s out e).out = out ∧
        t.inner (t.applyCall down s out e).self = t.inner s) ∨
    (∃ o, (t.applyCall down s out e).ok = (down (t.inner s) out o).ok ∧
        (t.applyCall down s out e).out = (down (t.inner s) out o).out ∧
        t.inner (t.applyCall down s out e).self = (down (t.inner s) out o).self) := by
  cases t with
  | map f => exact Or.inr ⟨tr_map_gen.apply.mapping s e, rfl, rfl, rfl⟩
  | filter p =>
    by_cases hp : (tr_filter_gen.apply.pred s e).1 = true
    · refine Or.inr ⟨(tr_filter_gen.apply.pred s e).2, ?_, ?_, ?_⟩ <;>
        simp [tr_transducer.applyCall, tr_transducer.inner, tr_filter_gen.apply.call, hp]
    · refine Or.inl ⟨?_, ?_, ?_⟩ <;>
        simp [tr_transducer.applyCall, tr_transducer.inner, tr_filter_gen.apply.call, hp]
  | enumerate n => exact Or.inr ⟨(tr_enumerate_gen.apply.n s, e), rfl, rfl, rfl⟩
  | limit n l => simp [tr_transducer.isMapFilterEnumerate] at h
  | each g => simp [tr_transducer.isMapFilterEnumerate] at h

/-- One call of the object built from a chain of map, filter and enumerate stages either
returns `true` with the accumulator and the base object unchanged, or returns what one
call of the base returns. -/
theorem chain_call_cases {I O : Type} (c : fn_chain_reversed I O) :
    ∀ {RF A : Type} (down : RF → A → O → StepResult RF A) (s : c.final_type RF) (out : A)
      (e : I), c.onlyMapFilterEnumerate = true →
    ((c.wrapCall down s out e).ok = true ∧ (c.wrapCall down s out e).out = out ∧
        c.base (c.wrapCall down s out e).self = c.base s) ∨
    (∃ o, (c.wrapCall down s out e).ok = (down (c.base s) out o).ok ∧
        (c.wrapCall down s out e).out = (down (c.base s) out o).out ∧
        c.base (c.wrapCall down s out e).self = (down (c.base s) out o).self) := by
  induction c with
  | nil => intro RF A down s out e _; exact Or.inr ⟨e, rfl, rfl, rfl⟩
  | cons head tail ih =>
    intro RF A down s out e h
    simp only [fn_chain_reversed.onlyMapFilterEnumerate, Bool.and_eq_true] at h
    show ((tail.wrapCall (head.applyCall down) s out e).ok = true ∧
        (tail.wrapCall (head.applyCall down) s out e).out = out ∧
        head.inner (tail.base (tail.wrapCall (head.applyCall down) s out e).self) =
          head.inner (tail.base s)) ∨
      (∃ o, (tail.wrapCall (head.applyCall down) s out e).ok =
          (down (head.inner (tail.base s)) out o).ok ∧
        (tail.wrapCall (head.applyCall down) s out e).out =
          (down (head.inner (tail.base s)) out o).out ∧
        head.inner (tail.base (tail.wrapCall (head.applyCall down) s out e).self) =
          (down (head.inner (tail.base s)) out o).self)
    rcases ih (head.applyCall down) s out e h.2 with ⟨h1, h2, h3⟩ | ⟨m, h1, h2, h3⟩
    · exact Or.inl ⟨h1, h2, by rw [h3]⟩
    · rw [h1, h2, h3]
      exact stage_call_cases head h.1 down (tail.base s) out m

/-- C15: for a non-empty chain `c` built only from map, filter and enumerate stages and
any base step `B`, the application `c(B)` succeeds, and one call of the fused step, from
any state and on any pack, either returns `true` leaving the accumulator and the base
object untouched, or returns exactly the result of one call of `B` on the base object;
hence the fused step returns `false` only if `B` was called in that invocation (its log
grows by one pack) and returned `false`. When `B` always returns `true` the fused step
always returns `true`, and the driver calls it on every tuple of the sources up to the end
of the shortest one, leaving the loop with the flag `true`. -/
theorem map_filter_enumerate_stop_only_from_base {I O RF A : Type}
    (c : fn_chain_reversed I O) (B : ReducingFn RF A O) (hc : 0 < c.size)
    (h : c.onlyMapFilterEnumerate = true) :
    c.invoke B = some (c.wrap B) ∧
    (∀ (s : c.final_type RF) (out : A) (e : I),
      (((c.wrap B).call s out e).ok = true ∧ ((c.wrap B).call s out e).out = out ∧
          c.base ((c.wrap B).call s out e).self = c.base s) ∨
      (∃ o, ((c.wrap B).call s out e).ok = (B.call (c.base s) out o).ok ∧
          ((c.wrap B).call s out e).out = (B.call (c.base s) out o).out ∧
          c.base ((c.wrap B).call s out e).self = (B.call (c.base s) out o).self)) ∧
    (∀ (s : c.final_type RF) (out : A) (e : I), ((c.wrap B).call s out e).ok = false →
      ∃ o, (B.call (c.base s) out o).ok = false ∧
        ((c.wrap B).call s out e).out = (B.call (c.base s) out o).out ∧
        c.base ((c.wrap B).call s out e).self = (B.call (c.base s) out o).self) ∧
    (∀ (s : c.final_type (RF × List O)) (out : A) (e : I),
      ((c.wrap (traced B)).call s out e).ok = false →
      ∃ o, (B.call (c.base s).1 out o).ok = false ∧
        (c.base ((c.wrap (traced B)).call s out e).self).2 = (c.base s).2 ++ [o]) ∧
    ((∀ s a o, (B.call s a o).ok = true) →
      (∀ (s : c.final_type RF) (out : A) (e : I), ((c.wrap B).call s out e).ok = true) ∧
      ∀ (out : A) (ranges : Ranges I) (fuel : Nat), ranges.shortest < fuel →
        (fn_accum_impl fuel (traced (c.wrap B)) out ranges).map
            (fun s => (s.step.2, s.firsts, s.ok)) =
          some (ranges.tuples, ranges.begins.map (· + ranges.shortest), true)) := by
  have stop : ∀ {RF2 : Type} (B2 : ReducingFn RF2 A O) (s : c.final_type RF2) (out : A)
      (e : I), ((c.wrap B2).call s out e).ok = false →
      ∃ o, (B2.call (c.base s) out o).ok = false ∧
        ((c.wrap B2).call s out e).out = (B2.call (c.base s) out o).out ∧
        c.base ((c.wrap B2).call s out e).self = (B2.call (c.base s) out o).self := by
    intro RF2 B2 s out e hf
    rcases chain_call_cases c B2.call s out e h with ⟨h1, _, _⟩ | ⟨o, h1, h2, h3⟩
    · have h1b : ((c.wrap B2).call s out e).ok = true := h1
      rw [hf] at h1b
      cases h1b
    · have h1b : ((c.wrap B2).call s out e).ok = (B2.call (c.base s) out o).ok := h1
      exact ⟨o, by rw [← h1b]; exact hf, h2, h3⟩
  refine ⟨fn_chain_reversed.call_eq_wrap c B hc, fun s out e => chain_call_cases c B.call
    s out e h, stop B, ?_, ?_⟩
  · intro s out e hf
    obtain ⟨o, h1, _, h3⟩ := stop (traced B) s out e hf
    refine ⟨o, h1, ?_⟩
    rw [h3]
    rfl
  · intro hcont
    have hall : ∀ (s : c.final_type RF) (out : A) (e : I),
        ((c.wrap B).call s out e).ok = true := by
      intro s out e
      rcases chain_call_cases c B.call s out e h with ⟨h1, _, _⟩ | ⟨o, h1, _, _⟩
      · exact h1
      · exact h1.trans (hcont _ _ _)
    refine ⟨hall, ?_⟩
    intro out ranges fuel hfuel
    rw [fn_accum_impl_eq fuel (traced (c.wrap B)) out ranges hfuel]
    have h2 : (traced (c.wrap B)).self = ((c.wrap B).self, []) := rfl
    rw [h2, runList_traced, invocations_traced, invocations_of_continue (c.wrap B).call hall,
      runList_ok_of_continue (c.wrap B).call hall, Ranges.length_tuples]
    simp [← Ranges.length_tuples]

/-- C15, witness: `tr | tr_map(x + 1) | tr_filter(2 < x) | tr_enumerate(0)` over a base
appending the pair of its two arguments, driven over `[1, 2, 3]`: all three elements are
processed. -/
theorem map_filter_enumerate_stop_only_from_base_witness :
    0 < (((tr.pipe (tr_map (fun x : Int => x + 1))).pipe
      (tr_filter (keeps (fun x : Int => decide (2 < x))))).pipe (tr_enumerate 0)).size ∧
    (((tr.pipe (tr_map (fun x : Int => x + 1))).pipe
      (tr_filter (keeps (fun x : Int => decide (2 < x))))).pipe
        (tr_enumerate 0)).onlyMapFilterEnumerate = true ∧
    (fn_accum_impl 4 (traced ((((tr.pipe (tr_map (fun x : Int => x + 1))).pipe
      (tr_filter (keeps (fun x : Int => decide (2 < x))))).pipe (tr_enumerate 0)).wrap
        (@emplace_back_fn Int Int))) [] (Ranges.one [1, 2, 3])).map
        (fun s => (s.step.2, s.firsts, s.ok)) =
      some ([1, 2, 3], [3], true) :=
  ⟨by decide, by decide,
   (((map_filter_enumerate_stop_only_from_base
      (((tr.pipe (tr_map (fun x : Int => x + 1))).pipe
        (tr_filter (keeps (fun x : Int => decide (2 < x))))).pipe (tr_enumerate 0))
      (@emplace_back_fn Int Int) (by decide) (by decide)).2.2.2.2
        (fun _ _ _ => rfl)).2 [] (Ranges.one [1, 2, 3]) 4 (by decide)).trans (by decide)⟩

/-! ## One invocation of a filter stage -/

/-- C16: what the code does in one invocation, on the pack `e`, of the step built by
`tr_filter(pred)` over any downstream `B`, from any state `s` of the stage and any
accumulator `out`. When the predicate rejects `e` the call returns `true` with the
accumulator and the whole stage object, the stored downstream object included, unchanged,
and `B` is not called (the log of an instrumented downstream is unchanged). When the
predicate accepts `e` the call returns exactly what one call of `B` returns, its flag,
its accumulator and its new downstream object, but that call of `B` is on the pack as the
call of the predicate left it, since the pack is forwarded to the predicate and then
again to `B`. For a predicate whose call leaves the pack as it was this is the call of `B`
on `(out, e)`; for a predicate that takes a `std::string` by value and is handed the rvalue
`"bb!"`, `B` receives the moved-from (empty) string: `push_back` appends `""` where its
call on `(out, "bb!")` appends `"bb!"`. -/
theorem filter_step_reject_inert_accept_delegates {I RF A : Type} (pred : I → Bool × I)
    (p : I → Bool) (B : ReducingFn RF A I) (s : tr_filter_gen.apply RF I) (out : A) (e : I)
    (st : tr_filter_gen.apply (RF × List I) I) :
    ((tr_filter pred).app B).self = { step := B.self, pred := pred } ∧
    ((s.pred e).1 = false →
      ((tr_filter pred).app B).call s out e = { ok := true, self := s, out := out }) ∧
    ((s.pred e).1 = true →
      ((tr_filter pred).app B).call s out e =
        { ok := (B.call s.step out (s.pred e).2).ok,
          self := { step := (B.call s.step out (s.pred e).2).self, pred := s.pred },
          out := (B.call s.step out (s.pred e).2).out }) ∧
    (p e = false →
      ((tr_filter (keeps p)).app B).call ((tr_filter (keeps p)).app B).self out e =
        { ok := true, self := ((tr_filter (keeps p)).app B).self, out := out }) ∧
    (p e = true →
      (((tr_filter (keeps p)).app B).call ((tr_filter (keeps p)).app B).self out e).ok =
          (B.call B.self out e).ok ∧
      (((tr_filter (keeps p)).app B).call ((tr_filter (keeps p)).app B).self out e).out =
          (B.call B.self out e).out ∧
      (((tr_filter (keeps p)).app B).call ((tr_filter (keeps p)).app B).self out
          e).self.step = (B.call B.self out e).self) ∧
    ((st.pred e).1 = false →
      (((tr_filter pred).app (traced B)).call st out e).self.step.2 = st.step.2) ∧
    ((st.pred e).1 = true →
      (((tr_filter pred).app (traced B)).call st out e).self.step.2 =
        st.step.2 ++ [(st.pred e).2]) ∧
    (((tr_filter (moves (fun x : String => decide (x.length > 2)) (fun _ => ""))).app
        (@push_back_fn String)).call
      ((tr_filter (moves (fun x : String => decide (x.length > 2)) (fun _ => ""))).app
        (@push_back_fn String)).self [] "bb!").out = [""] ∧
    ((@push_back_fn String).call (@push_back_fn String).self [] "bb!").out = ["bb!"] := by
  have hcall : ∀ {RF2 : Type} (q : I → Bool × I) (B2 : ReducingFn RF2 A I),
      ((tr_filter q).app B2).call = tr_filter_gen.apply.call B2.call := fun _ _ => rfl
  have hself : ((tr_filter (keeps p)).app B).self = { step := B.self, pred := keeps p } :=
    rfl
  refine ⟨rfl, ?_, ?_, ?_, ?_, ?_, ?_, by decide, by decide⟩
  · intro h; rw [hcall]; simp [tr_filter_gen.apply.call, h]
  · intro h; rw [hcall]; simp [tr_filter_gen.apply.call, h]
  · intro h; rw [hcall, hself]; simp [tr_filter_gen.apply.call, keeps, h]
  · intro h; rw [hcall, hself]; simp [tr_filter_gen.apply.call, keeps, h]
  · intro h; rw [hcall]; simp [tr_filter_gen.apply.call, h]
  · intro h; rw [hcall]; simp [tr_filter_gen.apply.call, h, traced]

/-! ## The iterators at the exit of the loop -/

theorem runList_ok_eq_firstStop {RF A I : Type} (call : RF → A → I → StepResult RF A)
    (es : List I) : ∀ (self : RF) (out : A),
    (runList call self out es).ok = (firstStop call self out es).isNone := by
  induction es with
  | nil => intro self out; rfl
  | cons e es ih =>
    intro self out
    simp only [runList, firstStop]
    by_cases hok : (call self out e).ok = true
    · simp only [hok, if_true]
      rw [ih]
      cases firstStop call (call self out e).self (call self out e).out es <;> rfl
    · simp only [hok]
      simpa using hok

/-- C17, counterexample: `tr_limit(1)` over `push_back`, driven over `[10, 20, 30]`,
returns stop on the tuple at position `1`; the loop is left with the iterator at
position `2`, not at position `1`. -/
theorem driver_cursor_at_stop_counterexample :
    firstStop ((tr_limit 1).app (@push_back_fn Int)).call
        ((tr_limit 1).app (@push_back_fn Int)).self [] (Ranges.one [10, 20, 30]).tuples =
      some 1 ∧
    (fn_accum_impl 4 ((tr_limit 1).app (@push_back_fn Int)) [] (Ranges.one [10, 20, 30])).map
        (fun s => (s.firsts, s.ok)) = some ([2], false) ∧
    (fn_accum_impl 4 ((tr_limit 1).app (@push_back_fn Int)) [] (Ranges.one [10, 20, 30])).map
        (fun s => s.firsts) ≠ some ((Ranges.one [(10 : Int), 20, 30]).begins.map (· + 1)) := by
  decide

/-- C17, amended: when the step function returns stop on the tuple at position `j` (the
first one on which it does), the driver makes no further call, the calls made being those
on the tuples `0 .. j` in order, and leaves the loop with the flag `false`; the body of the
loop has advanced every iterator once after the stopping call, so at the exit of the loop
every iterator is at position `j + 1`, one past the tuple that produced the stop, and no
iterator is advanced further. -/
theorem driver_stop_leaves_cursor_one_past {RF A I : Type} (step : ReducingFn RF A I)
    (out : A) (ranges : Ranges I) (fuel : Nat) (j : Nat)
    (hstop : firstStop step.call step.self out ranges.tuples = some j)
    (hfuel : ranges.shortest < fuel) :
    j < ranges.shortest ∧
    (fn_accum_impl fuel step out ranges).map (fun s => (s.firsts, s.ok)) =
      some (ranges.begins.map (· + (j + 1)), false) ∧
    (fn_accum_impl fuel (traced step) out ranges).map (fun s => s.step.2) =
      some (ranges.tuples.take (j + 1)) ∧
    (fn_accum_impl fuel step out ranges).map (fun s => s.firsts) ≠
      some (ranges.begins.map (· + j)) := by
  have hj : j < ranges.shortest := by
    rw [← Ranges.length_tuples]; exact firstStop_lt _ _ _ _ _ hstop
  have hp : processed step.call step.self out ranges.tuples = j + 1 := by
    simp only [processed, hstop, Ranges.length_tuples]; omega
  have hfirsts : (fn_accum_impl fuel step out ranges).map (fun s => (s.firsts, s.ok)) =
      some (ranges.begins.map (· + (j + 1)), false) := by
    rw [fn_accum_impl_eq fuel step out ranges hfuel, Option.map_some',
      invocations_eq_processed, hp, runList_ok_eq_firstStop, hstop]
    rfl
  refine ⟨hj, hfirsts, ?_, ?_⟩
  · rw [fn_accum_impl_eq fuel (traced step) out ranges hfuel]
    have h2 : (traced step).self = (step.self, []) := rfl
    rw [h2, runList_traced, invocations_eq_processed, hp]
    simp
  · rw [fn_accum_impl_eq fuel step out ranges hfuel, Option.map_some',
      invocations_eq_processed, hp]
    intro h
    have h3 := Option.some.inj h
    cases hb : ranges.begins with
    | nil => cases ranges <;> simp [Ranges.begins] at hb
    | cons b bs =>
      simp only [hb, List.map_cons, List.cons.injEq] at h3
      omega

/-- C17, witness: `tr_limit(0)` over `push_back` stops on the first element of `[7, 8]`;
the iterator is left at position 1. -/
theorem driver_stop_leaves_cursor_one_past_witness :
    firstStop ((tr_limit 0).app (@push_back_fn Int)).call
        ((tr_limit 0).app (@push_back_fn Int)).self [] (Ranges.one [7, 8]).tuples = some 0 ∧
    (Ranges.one [(7 : Int), 8]).shortest < 3 ∧
    (fn_accum_impl 3 ((tr_limit 0).app (@push_back_fn Int)) [] (Ranges.one [7, 8])).map
        (fun s => (s.firsts, s.ok)) = some ([1], false) :=
  ⟨by decide, by decide,
   ((driver_stop_leaves_cursor_one_past ((tr_limit 0).app (@push_back_fn Int)) []
      (Ranges.one [7, 8]) 3 0 (by decide) (by decide)).2.1).trans (by decide)⟩

/-! ## The calls made by a limit stage -/

theorem invocations_limit {RF A I : Type} (down : RF → A → I → StepResult RF A) (L : Int)
    (hcont : ∀ s a e, (down s a e).ok = true) (es : List I) :
    ∀ (c : Nat) (d : RF) (n : Int) (out : A),
    n + c = L + 1 → -2 ^ 31 ≤ n → n + min es.length (c + 1) ≤ 2 ^ 31 →
    invocations (tr_limit_gen.apply.call down) { step := d, n := n, limit := L } out es =
      min es.length (c + 1) := by
  induction es with
  | nil => intro c d n out _ _ _; simp [invocations]
  | cons e es ih =>
    intro c d n out hc hn hov
    cases c with
    | zero =>
      have : n > L := by omega
      simp [invocations, tr_limit_gen.apply.call, this]
    | succ c =>
      have hle : ¬ (n > L) := by push_cast at hc; omega
      simp only [invocations, tr_limit_gen.apply.call, hle, if_false, hcont, if_true]
      cases es with
      | nil => simp [invocations]
      | cons e2 es2 =>
        have hw : int_wrap (n + 1) = n + 1 := by
          apply int_wrap_of_range
          · omega
          · simp only [List.length_cons] at hov; omega
        rw [hw]
        have := ih c (down d out e).self (n + 1) (down d out e).out
          (by push_cast at hc; omega) (by omega)
          (by simp only [List.length_cons] at hov ⊢; omega)
        rw [this]
        simp only [List.length_cons]
        omega

/-- C18: for every cap `L ≥ 0` (below `INT_MAX`, or with fewer than `2^31` tuples, so
that the counter stays an `int`), every base step `B` that always returns `true` and every
pack of sources with `m` tuples, driving `tr_limit(L)(B)` calls the fused step on exactly
the first `min(L + 1, m)` tuples and `B` on exactly the first `min(L, m)` of them, and
leaves the iterators at `min(L + 1, m)`; the flag at the exit is `true` exactly when
`m ≤ L`. When `m > L` the tuple at position `L` is read from the sources and handed to
the fused step without reaching `B`; for `tr | tr_enumerate(0) | tr_limit(2)` over five
elements the enumerate stage upstream of the limit has consumed three indices when two
elements have been collected. -/
theorem limit_pulls_one_past_cap {I RF A : Type} (ranges : Ranges I) (L : Int)
    (B : ReducingFn RF A I) (out : A) (fuel : Nat) (hL : 0 ≤ L)
    (hov : L < 2 ^ 31 - 1 ∨ ranges.shortest < 2 ^ 31)
    (hcont : ∀ s a e, (B.call s a e).ok = true) (hfuel : ranges.shortest < fuel) :
    (fn_accum_impl fuel (traced ((tr_limit L).app B)) out ranges).map
        (fun s => (s.step.2, s.step.2.length, s.firsts)) =
      some (ranges.tuples.take (L.toNat + 1), min (L.toNat + 1) ranges.shortest,
        ranges.begins.map (· + min (L.toNat + 1) ranges.shortest)) ∧
    (fn_accum_impl fuel ((tr_limit L).app (traced B)) out ranges).map
        (fun s => (s.step.step.2, s.step.step.2.length, s.ok)) =
      some (ranges.tuples.take L.toNat, min L.toNat ranges.shortest,
        decide (ranges.shortest ≤ L.toNat)) ∧
    (L.toNat < ranges.shortest →
      ∃ e, ranges.tuples[L.toNat]? = some e ∧
        (fn_accum_impl fuel (traced ((tr_limit L).app B)) out ranges).map
          (fun s => s.step.2) = some (ranges.tuples.take L.toNat ++ [e])) ∧
    (((tr.pipe (tr_enumerate 0)).pipe (tr_limit 2)).invoke
        (@emplace_back_fn Int Int)).bind
      (fun fused => (fn_accum_impl 6 fused [] (Ranges.one [10, 20, 30, 40, 50])).map
        (fun s => (s.step.n, s.out, s.firsts))) =
      some (3, [(0, 10), (1, 20)], [3]) := by
  have hlen := Ranges.length_tuples ranges
  have hbound : (1 : Int) + ((min ranges.tuples.length (L.toNat + 1) : Nat) : Int) ≤
      2 ^ 31 := by
    have : ((min ranges.tuples.length (L.toNat + 1) : Nat) : Int) ≤ 2 ^ 31 - 1 := by
      rcases hov with h | h
      · have h1 : ((L.toNat + 1 : Nat) : Int) ≤ 2 ^ 31 - 1 := by
          push_cast; rw [Int.toNat_of_nonneg hL]; omega
        have h2 : min ranges.tuples.length (L.toNat + 1) ≤ L.toNat + 1 :=
          Nat.min_le_right _ _
        omega
      · have h2 : min ranges.tuples.length (L.toNat + 1) ≤ ranges.tuples.length :=
          Nat.min_le_left _ _
        omega
    omega
  have hc : (1 : Int) + (L.toNat : Int) = L + 1 := by rw [Int.toNat_of_nonneg hL]; ring
  have hcall : ∀ {RF2 : Type} (B2 : ReducingFn RF2 A I),
      ((tr_limit L).app B2).call = tr_limit_gen.apply.call B2.call := fun _ => rfl
  have hself : ∀ {RF2 : Type} (B2 : ReducingFn RF2 A I),
      ((tr_limit L).app B2).self = { step := B2.self, n := 1, limit := L } := fun _ => rfl
  have hinv : invocations ((tr_limit L).app B).call ((tr_limit L).app B).self out
      ranges.tuples = min (L.toNat + 1) ranges.shortest := by
    rw [hcall, hself, invocations_limit B.call L hcont ranges.tuples L.toNat B.self 1 out hc
      (by norm_num) hbound, hlen, Nat.min_comm]
  have hlog : (fn_accum_impl fuel (traced ((tr_limit L).app B)) out ranges).map
      (fun s => s.step.2) = some (ranges.tuples.take (L.toNat + 1)) := by
    rw [fn_accum_impl_eq fuel (traced ((tr_limit L).app B)) out ranges hfuel]
    have h2 : (traced ((tr_limit L).app B)).self = (((tr_limit L).app B).self, []) := rfl
    rw [h2, runList_traced, hinv, Option.map_some']
    simp only [List.nil_append, Option.some.injEq]
    rw [← hlen, List.take_eq_take]
    omega
  refine ⟨?_, ?_, ?_, by decide⟩
  · rw [fn_accum_impl_eq fuel (traced ((tr_limit L).app B)) out ranges hfuel]
    have h2 : (traced ((tr_limit L).app B)).self = (((tr_limit L).app B).self, []) := rfl
    rw [h2, runList_traced, invocations_traced, hinv, Option.map_some']
    simp only [List.nil_append, Option.some.injEq, Prod.mk.injEq, List.length_take, hlen,
      and_true]
    refine ⟨?_, by omega⟩
    rw [← hlen, List.take_eq_take]
    omega
  · have hself2 : ((tr_limit L).app (traced B)).self =
        { step := (B.self, []), n := 1, limit := L } := rfl
    rw [fn_accum_impl_eq fuel ((tr_limit L).app (traced B)) out ranges hfuel, hcall, hself2]
    obtain ⟨h1, h2, _⟩ := runList_limit (traced B).call L ranges.tuples L.toNat
      (B.self, []) 1 out hc (by norm_num) hbound
    rw [runList_traced] at h1 h2
    simp only [invocations_of_continue B.call hcont, runList_ok_of_continue B.call hcont,
      List.nil_append, List.take_take, List.length_take, hlen, Bool.true_and] at h1 h2
    rw [Option.map_some', h1, h2]
    simp only [List.length_take, hlen, Option.some.injEq, Prod.mk.injEq, and_true]
    refine ⟨?_, ?_⟩
    · rw [← hlen, List.take_eq_take]; omega
    · omega
  · intro hlt
    have hlt2 : L.toNat < ranges.tuples.length := by rw [hlen]; exact hlt
    refine ⟨ranges.tuples[L.toNat], List.getElem?_eq_getElem hlt2, ?_⟩
    rw [hlog, List.take_succ, List.getElem?_eq_getElem hlt2]
    rfl

/-- C18, witness: cap 2 over `[1, 2, 3, 4]`: three calls of the fused step, two of
`push_back`. -/
theorem limit_pulls_one_past_cap_witness :
    (0 : Int) ≤ 2 ∧
    ((2 : Int) < 2 ^ 31 - 1 ∨ (Ranges.one [(1 : Int), 2, 3, 4]).shortest < 2 ^ 31) ∧
    (∀ s a e, ((@push_back_fn Int).call s a e).ok = true) ∧
    (Ranges.one [(1 : Int), 2, 3, 4]).shortest < 5 ∧
    (fn_accum_impl 5 (traced ((tr_limit 2).app (@push_back_fn Int))) []
        (Ranges.one [1, 2, 3, 4])).map (fun s => (s.step.2, s.step.2.length, s.firsts)) =
      some ([1, 2, 3], 3, [3]) ∧
    (fn_accum_impl 5 ((tr_limit 2).app (traced (@push_back_fn Int))) []
        (Ranges.one [1, 2, 3, 4])).map (fun s => (s.step.step.2, s.step.step.2.length, s.ok)) =
      some ([1, 2], 2, false) :=
  ⟨by decide, Or.inl (by decide), fun _ _ _ => rfl, by decide,
   ((limit_pulls_one_past_cap (Ranges.one [(1 : Int), 2, 3, 4]) 2 (@push_back_fn Int) [] 5
      (by decide) (Or.inl (by decide)) (fun _ _ _ => rfl) (by decide)).1).trans (by decide),
   ((limit_pulls_one_past_cap (Ranges.one [(1 : Int), 2, 3, 4]) 2 (@push_back_fn Int) [] 5
      (by decide) (Or.inl (by decide)) (fun _ _ _ => rfl) (by decide)).2.1).trans
        (by decide)⟩

/-! ## An exhausted limit stage -/

theorem foldSteps_snoc {RF A I : Type} (call : RF → A → I → StepResult RF A) (self : RF)
    (out : A) (es : List I) (e : I) :
    foldSteps call self out (es ++ [e]) =
      call (foldSteps call self out es).self (foldSteps call self out es).out e := by
  simp [foldSteps, List.foldl_append]

theorem foldSteps_take_succ {RF A I : Type} (call : RF → A → I → StepResult RF A) (self : RF)
    (out : A) (es : List I) (j : Nat) (hj : j < es.length) :
    foldSteps call self out (es.take (j + 1)) =
      call (foldSteps call self out (es.take j)).self
        (foldSteps call self out (es.take j)).out es[j] := by
  rw [List.take_succ, List.getElem?_eq_getElem hj]
  exact foldSteps_snoc call self out (es.take j) es[j]

/-- Without overflow the counter of a limit stage after a sequence of calls is its start
value plus the number of calls, and the cap is unchanged. -/
theorem foldl_limit_counter {RF A I : Type} (down : RF → A → I → StepResult RF A)
    (es : List I) : ∀ (r : StepResult (tr_limit_gen.apply RF) A),
    -2 ^ 31 ≤ r.self.n → r.self.n + es.length < 2 ^ 31 →
    (es.foldl (fun s e => tr_limit_gen.apply.call down s.self s.out e) r).self.n =
        r.self.n + es.length ∧
    (es.foldl (fun s e => tr_limit_gen.apply.call down s.self s.out e) r).self.limit =
        r.self.limit := by
  induction es with
  | nil => intro r _ _; simp
  | cons e es ih =>
    intro r h1 h2
    simp only [List.length_cons, Nat.cast_add, Nat.cast_one] at h2
    have hw : int_wrap (r.self.n + 1) = r.self.n + 1 :=
      int_wrap_of_range _ (by omega) (by omega)
    have hn : (tr_limit_gen.apply.call down r.self r.out e).self.n = r.self.n + 1 := by
      simp only [tr_limit_gen.apply.call]
      split_ifs <;> exact hw
    have hl : (tr_limit_gen.apply.call down r.self r.out e).self.limit = r.self.limit := by
      simp only [tr_limit_gen.apply.call]
      split_ifs <;> rfl
    obtain ⟨ih1, ih2⟩ := ih (tr_limit_gen.apply.call down r.self r.out e)
      (by rw [hn]; omega) (by rw [hn]; omega)
    simp only [List.foldl_cons, List.length_cons, Nat.cast_add, Nat.cast_one]
    rw [ih1, ih2, hn, hl]
    exact ⟨by ring, rfl⟩

/-- A call of a limit stage whose counter exceeds the cap returns stop and changes only
the counter. -/
theorem limit_call_exhausted {RF A I : Type} (down : RF → A → I → StepResult RF A)
    (s : tr_limit_gen.apply RF) (out : A) (e : I) (hs : s.n > s.limit) :
    tr_limit_gen.apply.call down s out e =
      { ok := false, self := { s with n := int_wrap (s.n + 1) }, out := out } := by
  simp [tr_limit_gen.apply.call, hs]

/-- As long as the counter does not overflow, a sequence of calls of an exhausted limit
stage leaves the accumulator and the wrapped object unchanged, and the last call returns
stop. -/
theorem foldl_limit_exhausted {RF A I : Type} (down : RF → A → I → StepResult RF A)
    (es : List I) : ∀ (r : StepResult (tr_limit_gen.apply RF) A),
    r.self.n > r.self.limit → -2 ^ 31 ≤ r.self.n → r.self.n + es.length ≤ 2 ^ 31 →
    (es.foldl (fun s e => tr_limit_gen.apply.call down s.self s.out e) r).out = r.out ∧
    (es.foldl (fun s e => tr_limit_gen.apply.call down s.self s.out e) r).self.step =
        r.self.step ∧
    (es ≠ [] →
      (es.foldl (fun s e => tr_limit_gen.apply.call down s.self s.out e) r).ok = false) := by
  induction es with
  | nil => intro r _ _ _; simp
  | cons e es ih =>
    intro r hs h1 h2
    simp only [List.length_cons, Nat.cast_add, Nat.cast_one] at h2
    simp only [List.foldl_cons]
    rw [limit_call_exhausted down r.self r.out e hs]
    cases es with
    | nil => simp
    | cons e2 es2 =>
      simp only [List.length_cons, Nat.cast_add, Nat.cast_one] at h2
      have hw : int_wrap (r.self.n + 1) = r.self.n + 1 :=
        int_wrap_of_range _ (by omega) (by omega)
      obtain ⟨i1, i2, i3⟩ := ih
        { ok := false, self := { r.self with n := int_wrap (r.self.n + 1) }, out := r.out }
        (by simp only [hw]; omega) (by simp only [hw]; omega)
        (by simp only [hw, List.length_cons, Nat.cast_add, Nat.cast_one]; omega)
      exact ⟨i1, i2, fun _ => i3 (by simp)⟩

/-- C19: a limit stage never recovers before its `int` counter overflows. For the step
built by `tr_limit(L)` over any downstream `B`: a call that does not overflow the counter
increases it by one and keeps the cap; a call from a state whose counter exceeds the cap
returns stop and changes nothing but the counter, so `B` is not called; from such a state
`s`, every later call that sees a counter below `2^31` (the call number `k + 1` with
`s.n + k < 2^31`) returns stop with the accumulator and the downstream object unchanged;
counted from the creation of the instance, every invocation number `i` with `L < i` and
`i < 2^31`, whatever the earlier calls returned, returns stop and leaves the accumulator
and the downstream object as the invocation before it left them, so for `L ≥ 0` the
stopping calls number `c = 1, 2, ...` of the instance, the first one included, return stop
for every `c` below `2^31 - L`; and `fn_tr_reduce` over a new
pack of sources from an exhausted step returns the initial accumulator with the
downstream object unchanged: nothing is forwarded. For `0 ≤ L < 2^31 - 2` and a base that
always continues, a first `fn_tr_reduce` over more than `L` tuples leaves the counter at
`L + 2`, and a second one on the returned step forwards nothing. -/
theorem limit_never_recovers {I RF A : Type} (B : ReducingFn RF A I) (L : Int)
    (s : tr_limit_gen.apply RF) (out : A) (es : List I) (ys : Ranges I) (fuel : Nat)
    (hs : s.n > s.limit) (hlow : -2 ^ 31 ≤ s.n) (hfuel : ys.shortest < fuel) :
    (∀ (t : tr_limit_gen.apply RF) (e : I), -2 ^ 31 ≤ t.n → t.n < 2 ^ 31 - 1 →
      (((tr_limit L).app B).call t out e).self.n = t.n + 1 ∧
      (((tr_limit L).app B).call t out e).self.limit = t.limit) ∧
    (∀ e, ((tr_limit L).app B).call s out e =
      { ok := false, self := { s with n := int_wrap (s.n + 1) }, out := out }) ∧
    (∀ (st : tr_limit_gen.apply (RF × List I)) (e : I), st.n > st.limit →
      (((tr_limit L).app (traced B)).call st out e).ok = false ∧
      (((tr_limit L).app (traced B)).call st out e).self.step.2 = st.step.2) ∧
    (∀ k, k < es.length → s.n + k < 2 ^ 31 →
      (foldSteps ((tr_limit L).app B).call s out (es.take (k + 1))).ok = false ∧
      (foldSteps ((tr_limit L).app B).call s out (es.take (k + 1))).out = out ∧
      (foldSteps ((tr_limit L).app B).call s out (es.take (k + 1))).self.step = s.step) ∧
    (∀ j, j < es.length → L ≤ j → (j : Int) + 1 < 2 ^ 31 →
      (foldSteps ((tr_limit L).app B).call ((tr_limit L).app B).self out
          (es.take (j + 1))).ok = false ∧
      (foldSteps ((tr_limit L).app B).call ((tr_limit L).app B).self out
          (es.take (j + 1))).out =
        (foldSteps ((tr_limit L).app B).call ((tr_limit L).app B).self out
          (es.take j)).out ∧
      (foldSteps ((tr_limit L).app B).call ((tr_limit L).app B).self out
          (es.take (j + 1))).self.step =
        (foldSteps ((tr_limit L).app B).call ((tr_limit L).app B).self out
          (es.take j)).self.step) ∧
    (0 ≤ L → ∀ c : Nat, 1 ≤ c → (c : Int) < 2 ^ 31 - L → L.toNat + c ≤ es.length →
      (foldSteps ((tr_limit L).app B).call ((tr_limit L).app B).self out
          (es.take (L.toNat + c))).ok = false ∧
      (foldSteps ((tr_limit L).app B).call ((tr_limit L).app B).self out
          (es.take (L.toNat + c))).self.step =
        (foldSteps ((tr_limit L).app B).call ((tr_limit L).app B).self out
          (es.take (L.toNat + c - 1))).self.step) ∧
    (fn_tr_reduce fuel out { self := s, call := ((tr_limit L).app B).call } ys).map
        (fun r => (r.1, r.2.self.step)) = some (out, s.step) ∧
    (0 ≤ L → L < 2 ^ 31 - 2 → (∀ d a e, (B.call d a e).ok = true) →
      ∀ (xs : Ranges I) (fuel1 : Nat), L.toNat < xs.shortest → xs.shortest < fuel1 →
      ∃ r1, fn_tr_reduce fuel1 out ((tr_limit L).app B) xs = some r1 ∧
        r1.2.self.n = L + 2 ∧ r1.2.self.limit = L ∧
        ∀ out2, (fn_tr_reduce fuel out2 r1.2 ys).map (fun r2 => (r2.1, r2.2.self.step)) =
          some (out2, r1.2.self.step)) := by
  have hcall : ∀ {RF2 : Type} (B2 : ReducingFn RF2 A I),
      ((tr_limit L).app B2).call = tr_limit_gen.apply.call B2.call := fun _ => rfl
  have hself : ((tr_limit L).app B).self = { step := B.self, n := 1, limit := L } := rfl
  have redrive : ∀ (s2 : tr_limit_gen.apply RF) (out2 : A), s2.n > s2.limit →
      (fn_tr_reduce fuel out2 { self := s2, call := ((tr_limit L).app B).call } ys).map
        (fun r => (r.1, r.2.self.step)) = some (out2, s2.step) := by
    intro s2 out2 h2
    rw [fn_tr_reduce_eq fuel out2 _ ys hfuel, Option.map_some']
    simp only [hcall]
    cases ys.tuples with
    | nil => rfl
    | cons e rest => simp [runList, limit_call_exhausted B.call s2 out2 e h2]
  have fresh : ∀ j, j < es.length → L ≤ j → (j : Int) + 1 < 2 ^ 31 →
      (foldSteps ((tr_limit L).app B).call ((tr_limit L).app B).self out
          (es.take (j + 1))).ok = false ∧
      (foldSteps ((tr_limit L).app B).call ((tr_limit L).app B).self out
          (es.take (j + 1))).out =
        (foldSteps ((tr_limit L).app B).call ((tr_limit L).app B).self out
          (es.take j)).out ∧
      (foldSteps ((tr_limit L).app B).call ((tr_limit L).app B).self out
          (es.take (j + 1))).self.step =
        (foldSteps ((tr_limit L).app B).call ((tr_limit L).app B).self out
          (es.take j)).self.step := by
    intro j hj hLj hov
    rw [foldSteps_take_succ _ _ _ _ _ hj, hcall, hself]
    have hlen : (es.take j).length = j := by
      rw [List.length_take]; omega
    obtain ⟨h1, h2⟩ := foldl_limit_counter B.call (es.take j)
      { ok := true, self := { step := B.self, n := 1, limit := L }, out := out }
      (by norm_num) (by simp only [hlen]; omega)
    simp only [hlen] at h1 h2
    have hex : (foldSteps (tr_limit_gen.apply.call B.call)
        { step := B.self, n := 1, limit := L } out (es.take j)).self.n >
        (foldSteps (tr_limit_gen.apply.call B.call)
        { step := B.self, n := 1, limit := L } out (es.take j)).self.limit := by
      unfold foldSteps
      rw [h1, h2]; omega
    rw [limit_call_exhausted B.call _ _ _ hex]
    exact ⟨rfl, rfl, rfl⟩
  refine ⟨?_, ?_, ?_, ?_, fresh, ?_, redrive s out hs, ?_⟩
  · intro t e h1 h2
    have hw : int_wrap (t.n + 1) = t.n + 1 := int_wrap_of_range _ (by omega) (by omega)
    rw [hcall]
    simp only [tr_limit_gen.apply.call]
    split_ifs <;> exact ⟨hw, rfl⟩
  · intro e
    rw [hcall, limit_call_exhausted B.call s out e hs]
  · intro st e hst
    rw [hcall, limit_call_exhausted (traced B).call st out e hst]
    exact ⟨rfl, rfl⟩
  · intro k hk hov
    rw [hcall]
    have hlen : (es.take (k + 1)).length = k + 1 := by
      rw [List.length_take]; omega
    obtain ⟨h1, h2, h3⟩ := foldl_limit_exhausted B.call (es.take (k + 1))
      { ok := true, self := s, out := out } hs hlow
      (by simp only [hlen, Nat.cast_add, Nat.cast_one]; omega)
    refine ⟨h3 ?_, h1, h2⟩
    intro h
    rw [h] at hlen
    simp at hlen
  · intro hL c hc1 hc2 hlen
    have hLn : (L.toNat : Int) = L := Int.toNat_of_nonneg hL
    obtain ⟨h1, _, h3⟩ := fresh (L.toNat + c - 1) (by omega) (by omega)
      (by
        have : ((L.toNat + c - 1 : Nat) : Int) = L + c - 1 := by omega
        omega)
    have he : L.toNat + c - 1 + 1 = L.toNat + c := by omega
    rw [he] at h1 h3
    exact ⟨h1, h3⟩
  · intro hL hL2 hcont xs fuel1 hx hfuel1
    refine ⟨_, fn_tr_reduce_eq fuel1 out _ xs hfuel1, ?_⟩
    have hlenx := Ranges.length_tuples xs
    have hc : (1 : Int) + (L.toNat : Int) = L + 1 := by rw [Int.toNat_of_nonneg hL]; ring
    have hLn : (L.toNat : Int) = L := Int.toNat_of_nonneg hL
    have hinv : processed (tr_limit_gen.apply.call B.call)
        { step := B.self, n := 1, limit := L } out xs.tuples = L.toNat + 1 := by
      rw [← invocations_eq_processed, invocations_limit B.call L hcont xs.tuples L.toNat
        B.self 1 out hc (by norm_num)
        (by
          have : min xs.tuples.length (L.toNat + 1) ≤ L.toNat + 1 := Nat.min_le_right _ _
          omega), hlenx]
      omega
    have hrun : runList ((tr_limit L).app B).call ((tr_limit L).app B).self out xs.tuples =
        foldSteps (tr_limit_gen.apply.call B.call) { step := B.self, n := 1, limit := L } out
          (xs.tuples.take (L.toNat + 1)) := by
      rw [hcall, hself, runList_eq_foldSteps, hinv]
    have hlen : (xs.tuples.take (L.toNat + 1)).length = L.toNat + 1 := by
      rw [List.length_take, hlenx]; omega
    obtain ⟨h1, h2⟩ := foldl_limit_counter B.call (xs.tuples.take (L.toNat + 1))
      { ok := true, self := { step := B.self, n := 1, limit := L }, out := out }
      (by norm_num) (by simp only [hlen, Nat.cast_add, Nat.cast_one]; omega)
    simp only [hlen, Nat.cast_add, Nat.cast_one] at h1 h2
    have hn : (runList ((tr_limit L).app B).call ((tr_limit L).app B).self out
        xs.tuples).self.n = L + 2 := by
      rw [hrun]
      unfold foldSteps
      rw [h1]; omega
    have hl : (runList ((tr_limit L).app B).call ((tr_limit L).app B).self out
        xs.tuples).self.limit = L := by
      rw [hrun]
      exact h2
    refine ⟨hn, hl, ?_⟩
    intro out2
    exact redrive _ out2 (by rw [hn, hl]; omega)

/-- C19, witness: a limit stage with cap 1 and counter 3 re-driven over `[4, 5]` forwards
nothing; after a first run over `[1, 2, 3]` the counter is 3, and a second run leaves
the collected `[1]` unchanged. -/
theorem limit_never_recovers_witness :
    (({ step := (), n := 3, limit := 1 } : tr_limit_gen.apply Unit).n >
      ({ step := (), n := 3, limit := 1 } : tr_limit_gen.apply Unit).limit) ∧
    -2 ^ 31 ≤ ({ step := (), n := 3, limit := 1 } : tr_limit_gen.apply Unit).n ∧
    (Ranges.one [(4 : Int), 5]).shortest < 3 ∧
    (fn_tr_reduce 3 [(1 : Int)]
        { self := { step := (), n := 3, limit := 1 },
          call := ((tr_limit 1).app (@push_back_fn Int)).call }
        (Ranges.one [4, 5])).map (fun r => (r.1, r.2.self.step)) = some ([1], ()) ∧
    (fn_tr_reduce 4 ([] : List Int) ((tr_limit 1).app (@push_back_fn Int))
        (Ranges.one [1, 2, 3])).bind
      (fun r1 => (fn_tr_reduce 3 r1.1 r1.2 (Ranges.one [4, 5])).map
        (fun r2 => (r1.1, r1.2.self.n, r2.1, r2.2.self.n))) = some ([1], 3, [1], 4) :=
  ⟨by decide, by decide, by decide,
   ((limit_never_recovers (@push_back_fn Int) 1
      { step := (), n := 3, limit := 1 } [(1 : Int)] [7, 8] (Ranges.one [(4 : Int), 5]) 3
      (by decide) (by decide) (by decide)).2.2.2.2.2.2.1).trans (by decide),
   by decide⟩

end Transducer
